import Mathlib

/-!
Verification of the NYC Airbnb ETL pipeline (extract / transform / load)
against its natural-language specification.

The tables manipulated by pandas are modelled shallowly: a `Table` is a
header (list of column names) together with a list of rows, each row a list
of scalar cells.  Scalars are modelled by `Value`: missing data (NaN / NaT /
None) is `Value.null`, numerics are exact rationals, datetimes are integer
day numbers (the run-time clock `now` is an integer day as well, so
`(datetime.now() - col).dt.days` is exact integer subtraction).  Python
exceptions are modelled with `Except String`.
-/

namespace AbEtl

/- Batteries marks the rational-number arithmetic irreducible; the concrete
evaluations below (witnesses and counterexamples) need the kernel to unfold
it. -/
attribute [local semireducible] Rat.mul Rat.add Rat.sub Rat.inv Rat.ofScientific

/-- A pandas scalar cell: NaN/NaT/None collapse to `null`; numeric values are
modelled as exact rationals; datetimes as days since the epoch. -/
inductive Value where
  | null : Value
  | num : ℚ → Value
  | str : String → Value
  | date : ℤ → Value
  | bool : Bool → Value
deriving DecidableEq, Repr

/-- A DataFrame: column labels plus rows of cells (positionally aligned with
the labels). -/
structure Table where
  cols : List String
  rows : List (List Value)
deriving DecidableEq, Repr

/-- A table is well-formed (rectangular) when every row has exactly one cell
per column, as every real DataFrame does. -/
def Table.WF (t : Table) : Prop :=
  ∀ r ∈ t.rows, r.length = t.cols.length

instance (t : Table) : Decidable t.WF := List.decidableBAll _ _

/-- Index of the first column with the given label (pandas label lookup;
duplicate labels after renaming are undefined behaviour in the source, we
resolve to the first occurrence). -/
def colIdx? : List String → String → Option Nat
  | [], _ => none
  | c' :: cs, c => if c' = c then some 0 else (colIdx? cs c).map (· + 1)

/-- Cell of a row at a column position, `null` when out of range. -/
def cellAt (r : List Value) (i : Nat) : Value := r.getD i .null

/-- Embeds `df[c]` as a list of cells down the rows (empty when the label is
absent; label-indexing errors are modelled separately by `getColE`). -/
def getCol (t : Table) (c : String) : List Value :=
  match colIdx? t.cols c with
  | some i => t.rows.map (fun r => cellAt r i)
  | none => []

/-- Embeds `df[c]`, raising `KeyError` when the label is absent. -/
def getColE (t : Table) (c : String) : Except String (List Value) :=
  match colIdx? t.cols c with
  | some i => .ok (t.rows.map (fun r => cellAt r i))
  | none => .error ("KeyError: " ++ c)

/-- Replace the cell at position `i` (padding with `null` beyond the end, so
the characterising lemmas hold unconditionally). -/
def updateAt : Nat → (Value → Value) → List Value → List Value
  | 0, f, [] => [f .null]
  | 0, f, v :: r => f v :: r
  | i + 1, f, [] => .null :: updateAt i f []
  | i + 1, f, v :: r => v :: updateAt i f r

/-- Embeds `df[c] = df[c].map f` — cell-wise update of one column (no-op when the
label is absent, matching the guarded uses in the source). -/
def mapCol (t : Table) (c : String) (f : Value → Value) : Table :=
  match colIdx? t.cols c with
  | some i => ⟨t.cols, t.rows.map (updateAt i f)⟩
  | none => t

/-- Embeds `df = df[mask]` where the mask is a predicate on column `c`. -/
def filterCol (t : Table) (c : String) (p : Value → Bool) : Table :=
  match colIdx? t.cols c with
  | some i => ⟨t.cols, t.rows.filter (fun r => p (cellAt r i))⟩
  | none => t

/-- Embeds `df[c] = series` — overwrite an existing column or append a new one. -/
def setCol (t : Table) (c : String) (vs : List Value) : Table :=
  match colIdx? t.cols c with
  | some i => ⟨t.cols, List.zipWith (fun r v => updateAt i (fun _ => v) r) t.rows vs⟩
  | none => ⟨t.cols ++ [c], List.zipWith (fun r v => r ++ [v]) t.rows vs⟩

/-- Row with every field missing (`df.isnull().all(axis=1)`). -/
def rowAllNull (r : List Value) : Bool := r.all (fun v => v == .null)

/-- Embeds `drop_duplicates()` keeping the first occurrence; two rows are duplicates
when all cells compare equal (null equal to null).  `seen` accumulates the
rows already emitted. -/
def dedupAux : List (List Value) → List (List Value) → List (List Value)
  | [], _ => []
  | r :: rs, seen => if r ∈ seen then dedupAux rs seen else r :: dedupAux rs (r :: seen)

def dedupRows (l : List (List Value)) : List (List Value) := dedupAux l []

def dedupTable (t : Table) : Table := ⟨t.cols, dedupRows t.rows⟩

/-- Embeds `df.columns = [f(c) for c in df.columns]`. -/
def renameCols (f : String → String) (t : Table) : Table :=
  ⟨t.cols.map f, t.rows⟩

/-- Embeds `df.dropna(how='all')`. -/
def dropAllNullRows (t : Table) : Table :=
  ⟨t.cols, t.rows.filter (fun r => !rowAllNull r)⟩

/-! ### String helpers (Python `str` methods used on column names / cells) -/

/-- Python `str.strip()` (leading and trailing whitespace removed). -/
def pyStrip (s : String) : String :=
  ⟨((s.data.dropWhile Char.isWhitespace).reverse.dropWhile Char.isWhitespace).reverse⟩

/-- Python `str.lower()`. -/
def pyLower (s : String) : String := ⟨s.data.map Char.toLower⟩

/-- Python `str.replace(a, b)` for single-character patterns. -/
def replaceChar (a b : Char) (s : String) : String :=
  ⟨s.data.map (fun ch => if ch = a then b else ch)⟩

/-- Column-name normalization of `DataTransformer.clean_data`
(transform.py line 31): `col.strip().lower().replace(' ', '_')` —
note: no hyphen replacement in this variant. -/
def dtNormalize (c : String) : String :=
  replaceChar ' ' '_' (pyLower (pyStrip c))

/-- Column-name normalization of `NYC_Airbnb_ETL.transform`
(pipeline.py lines 96-99):
`col.strip().lower().replace(' ', '_').replace('-', '_')`. -/
def nycNormalize (c : String) : String :=
  replaceChar '-' '_' (replaceChar ' ' '_' (pyLower (pyStrip c)))

/-! ### Scalar coercions (`pd.to_numeric`, `pd.to_datetime`, …) -/

/-- Decimal-string parsing as performed by `pd.to_numeric`: optional sign,
digits, optional fractional part (scientific notation and other exotic forms
accepted by pandas are out of model; no claim depends on them). -/
def parseDigits : List Char → Option ℕ
  | [] => none
  | cs =>
    if cs.all Char.isDigit then
      some (cs.foldl (fun acc c => acc * 10 + (c.toNat - 48)) 0)
    else none

def parseNumCore (cs : List Char) : Option ℚ :=
  match cs with
  | [] => none
  | _ =>
    let (sgn, body) : ℚ × List Char :=
      match cs with
      | '-' :: rest => (-1, rest)
      | '+' :: rest => (1, rest)
      | _ => (1, cs)
    match body.splitOn '.' with
    | [ip] => (parseDigits ip).map (fun n => sgn * n)
    | [ip, fp] =>
      match parseDigits ip, parseDigits fp with
      | some n, some f => some (sgn * (n + (f : ℚ) / (10 : ℚ) ^ fp.length))
      | _, _ => none
    | _ => none

def parseNum (s : String) : Option ℚ := parseNumCore (pyStrip s).data

/-- Days since 1970-01-01 of a civil date (proleptic Gregorian). -/
def daysFromCivil (y m d : ℤ) : ℤ :=
  let y' := if m ≤ 2 then y - 1 else y
  let era := (if 0 ≤ y' then y' else y' - 399) / 400
  let yoe := y' - era * 400
  let mp := (m + 9) % 12
  let doy := (153 * mp + 2) / 5 + d - 1
  let doe := yoe * 365 + yoe / 4 - yoe / 100 + doy
  era * 146097 + doe - 719468

/-- ISO `YYYY-MM-DD` parsing as performed by `pd.to_datetime` (the many
further formats pandas accepts are out of model; unparseable strings give
`none`, i.e. NaT under `errors='coerce'`). -/
def parseDate (s : String) : Option ℤ :=
  match (pyStrip s).data.splitOn '-' with
  | [ys, ms, ds] =>
    match parseDigits ys, parseDigits ms, parseDigits ds with
    | some y, some m, some d =>
      if 1 ≤ m ∧ m ≤ 12 ∧ 1 ≤ d ∧ d ≤ 31 then
        some (daysFromCivil y m d)
      else none
    | _, _, _ => none
  | _ => none

/-- Embeds `pd.to_numeric(x, errors='coerce')` on one cell: anything that fails
coercion becomes missing, never an error.  (Timestamps coercing to NaN and
booleans to 0/1 follow pandas.) -/
def toNumericV : Value → Value
  | .num q => .num q
  | .bool b => .num (if b then 1 else 0)
  | .null => .null
  | .str s => match parseNum s with
    | some q => .num q
    | none => .null
  | .date _ => .null

/-- Embeds `pd.to_datetime(x, errors='coerce')` on one cell.  Numeric values are
interpreted by pandas as nanoseconds since the epoch; we floor to days. -/
def toDatetimeV : Value → Value
  | .date d => .date d
  | .null => .null
  | .str s => match parseDate s with
    | some d => .date d
    | none => .null
  | .num q => .date ⌊q / 86400000000000⌋
  | .bool _ => .null

/-- Embeds `x >= 0` on a numeric-coerced cell (`df_clean[df_clean[col] >= 0]`,
transform.py line 60): NaN compares `False`, hence is removed too. -/
def geZeroB : Value → Bool
  | .num q => decide (0 ≤ q)
  | _ => false

/-- Embeds `series.astype(str).str.strip()` then mapping the literal strings
`''`, `'nan'`, `'NaN'`, `'None'` to missing (transform.py lines 77-79).
String rendering of non-string scalars is modelled approximately; no claim
depends on it. -/
def pyStrV : Value → String
  | .str s => s
  | .null => "nan"
  | .bool b => if b then "True" else "False"
  | .num q => toString q
  | .date d => toString d

def catCleanV (v : Value) : Value :=
  let s := pyStrip (pyStrV v)
  if s = "" ∨ s = "nan" ∨ s = "NaN" ∨ s = "None" then .null else .str s

/-! ### `DataTransformer` (src/transform.py) -/

/-- The `config['transformation']` dictionary consumed by `DataTransformer`. -/
structure TConfig where
  missing_threshold : ℚ
  numeric_cols : List String
  categorical_cols : List String
  date_cols : List String
  outlier_method : Option String
  create_features : List String
deriving DecidableEq, Repr

/-- Count of missing cells at column position `i`. -/
def nullCountAt (t : Table) (i : Nat) : Nat :=
  (t.rows.map (fun r => cellAt r i)).countP (fun v => v == .null)

/-- Stage D (transform.py lines 40-49): drop every column whose missing
fraction strictly exceeds the threshold.  `isnull().mean()` over an empty
frame is NaN, which never exceeds the threshold, so nothing is dropped.
(Dropping is per position; duplicate labels are undefined behaviour.) -/
def dropHighMissing (thr : ℚ) (t : Table) : Table :=
  match t.rows.length with
  | 0 => t
  | n =>
    let keep := (List.range t.cols.length).filter
      (fun i => !decide ((nullCountAt t i : ℚ) / (n : ℚ) > thr))
    ⟨keep.map (fun i => t.cols.getD i ""),
     t.rows.map (fun r => keep.map (fun i => cellAt r i))⟩

/-- Insertion sort on rationals (ascending), modelling the sort inside
`Series.quantile`. -/
def insertSorted (x : ℚ) : List ℚ → List ℚ
  | [] => [x]
  | y :: ys => if x ≤ y then x :: y :: ys else y :: insertSorted x ys

def sortRat (l : List ℚ) : List ℚ := l.foldr insertSorted []

/-- Embeds `Series.quantile(p)` with pandas' default linear interpolation, over the
ascending-sorted non-missing values; `none` (NaN) when there are none. -/
def quantileSorted (xs : List ℚ) (p : ℚ) : Option ℚ :=
  match xs with
  | [] => none
  | _ =>
    let h : ℚ := p * ((xs.length : ℚ) - 1)
    let i : ℕ := (⌊h⌋).toNat
    let a := xs.getD i 0
    let b := xs.getD (i + 1) a
    some (a + (h - (i : ℚ)) * (b - a))

def numOpt : Value → Option ℚ
  | .num q => some q
  | _ => none

/-- Embeds `series.clip(lower, upper)`: missing stays missing. -/
def clipV (lo hi : ℚ) : Value → Value
  | .num q => .num (min (max q lo) hi)
  | v => v

/-- IQR capping (transform.py lines 63-71): clamp the column to
`[Q1 - 1.5*IQR, Q3 + 1.5*IQR]`; a no-op when the column has no numeric
values (quantiles are NaN and `clip` with NaN bounds leaves cells alone). -/
def iqrClip (t : Table) (c : String) : Table :=
  let vals := sortRat ((getCol t c).filterMap numOpt)
  match quantileSorted vals (1 / 4), quantileSorted vals (3 / 4) with
  | some q1, some q3 =>
    let iqr := q3 - q1
    mapCol t c (clipV (q1 - 3 / 2 * iqr) (q3 + 3 / 2 * iqr))
  | _, _ => t

/-- One iteration of the numeric-column loop (transform.py lines 53-71):
coerce to numeric; for the `price` column drop negative (and unparseable,
hence NaN) rows; optionally IQR-cap. -/
def numericStep (cfg : TConfig) (t : Table) (c : String) : Table :=
  if c ∈ t.cols then
    let ta := mapCol t c toNumericV
    let tb := if c = "price" then filterCol ta c geZeroB else ta
    if cfg.outlier_method = some "iqr" then iqrClip tb c else tb
  else t

/-- One iteration of the categorical-column loop (transform.py lines 75-79). -/
def catStep (t : Table) (c : String) : Table :=
  if c ∈ t.cols then mapCol t c catCleanV else t

/-- One iteration of the date-column loop (transform.py lines 83-85 and
pipeline.py lines 136-138). -/
def dateStep (t : Table) (c : String) : Table :=
  if c ∈ t.cols then mapCol t c toDatetimeV else t

/-- Embeds `DataTransformer.clean_data` (transform.py lines 17-88): normalize
column names, drop duplicate rows, prune high-missing columns, then clean
numeric, categorical and date columns.  Never raises. -/
def dtCleanData (cfg : TConfig) (t : Table) : Table :=
  let t1 := renameCols dtNormalize t
  let t2 := dedupTable t1
  let t3 := dropHighMissing cfg.missing_threshold t2
  let t4 := cfg.numeric_cols.foldl (numericStep cfg) t3
  let t5 := cfg.categorical_cols.foldl catStep t4
  cfg.date_cols.foldl dateStep t5

/-! ### Feature engineering: fallible cell-level operations

Arithmetic and comparisons on object-dtype cells raise `TypeError` in
pandas when a string (or a timestamp, for `<`/`>` against an int) is
involved; NaN comparisons are `False`. -/

/-- Element-wise application of a fallible cell operation down a column
(a pandas vectorised operation: the first failing cell aborts the whole
statement). -/
def mapME (f : α → Except String β) : List α → Except String (List β)
  | [] => .ok []
  | a :: as => do
    let b ← f a
    let bs ← mapME f as
    pure (b :: bs)

/-- Embeds `series.clip(lower=1)` on one cell. -/
def clipLower1E : Value → Except String Value
  | .num q => .ok (.num (max q 1))
  | .null => .ok .null
  | .bool b => .ok (.num (max (if b then 1 else 0) 1))
  | _ => .error "TypeError: clip not supported for this dtype"

/-- Numeric view of a cell for arithmetic: `none` is NaN. -/
def toNumForArith : Value → Except String (Option ℚ)
  | .num q => .ok (some q)
  | .null => .ok none
  | .bool b => .ok (some (if b then 1 else 0))
  | _ => .error "TypeError: unsupported operand type"

/-- Cell-wise division `price / divisor` (NaN-propagating).  The divisor is
always `>= 1` here thanks to the clip, so rational division is faithful to
float division. -/
def divPairE (p : Value × Value) : Except String Value := do
  let a ← toNumForArith p.1
  let b ← toNumForArith p.2
  match a, b with
  | some x, some y => pure (.num (x / y))
  | _, _ => pure .null

/-- Embeds `series > 0` producing a boolean cell (NaN gives `False`). -/
def gtZeroE : Value → Except String Value
  | .num q => .ok (.bool (decide (0 < q)))
  | .null => .ok (.bool false)
  | .bool b => .ok (.bool b)
  | _ => .error "TypeError: comparison not supported"

/-- Embeds `(datetime.now() - cell).dt.days` at integer-day granularity. -/
def subDaysE (now : ℤ) : Value → Except String Value
  | .date d => .ok (.num ((now - d : ℤ) : ℚ))
  | .null => .ok .null
  | _ => .error "TypeError: unsupported operand types for subtraction"

/-- Embeds `.fillna(-1)` on one cell. -/
def fillNegOne (v : Value) : Value :=
  if v = .null then .num (-1) else v

/-- Embeds `series > 50` as a boolean (NaN gives `False`). -/
def gt50E : Value → Except String Bool
  | .num q => .ok (decide (50 < q))
  | .null => .ok false
  | .bool _ => .ok false
  | _ => .error "TypeError: comparison not supported"

/-- Embeds `series <= 3` as a boolean (NaN gives `False`). -/
def le3E : Value → Except String Bool
  | .num q => .ok (decide (q ≤ 3))
  | .null => .ok false
  | .bool _ => .ok true
  | _ => .error "TypeError: comparison not supported"

/-- Embeds `price_per_night` feature (transform.py lines 105-107 and pipeline.py
lines 149-151): `df['price'] / df['minimum_nights'].clip(lower=1)`, gated on
both source columns existing. -/
def featPPN (t : Table) : Except String Table :=
  if "price" ∈ t.cols ∧ "minimum_nights" ∈ t.cols then do
    let mn ← mapME clipLower1E (getCol t "minimum_nights")
    let vals ← mapME divPairE ((getCol t "price").zip mn)
    pure (setCol t "price_per_night" vals)
  else pure t

/-- Embeds `has_availability` / `is_available` feature: `availability_365 > 0`. -/
def featAvailability (colName : String) (t : Table) : Except String Table :=
  if "availability_365" ∈ t.cols then do
    let vals ← mapME gtZeroE (getCol t "availability_365")
    pure (setCol t colName vals)
  else pure t

/-- Review-recency feature (transform.py lines 113-118 and pipeline.py lines
142-147): day difference to run time, then `fillna(-1)` (two successive
column assignments, as in the source). -/
def featRecency (colName : String) (now : ℤ) (t : Table) : Except String Table :=
  if "last_review" ∈ t.cols then do
    let vals ← mapME (subDaysE now) (getCol t "last_review")
    let ta := setCol t colName vals
    pure (setCol ta colName ((getCol ta colName).map fillNegOne))
  else pure t

/-- Embeds `is_superhost` feature (transform.py lines 120-126).  The guard checks
`host_name` and `number_of_reviews`; the computation reads
`number_of_reviews` and `calculated_host_listings_count` — the latter is
fetched unguarded, so a missing column is a `KeyError`. -/
def featSuperhost (t : Table) : Except String Table :=
  if "host_name" ∈ t.cols ∧ "number_of_reviews" ∈ t.cols then do
    let nr ← getColE t "number_of_reviews"
    let lhs ← mapME gt50E nr
    let ch ← getColE t "calculated_host_listings_count"
    let rhs ← mapME le3E ch
    pure (setCol t "is_superhost" ((lhs.zip rhs).map (fun p => .bool (p.1 && p.2))))
  else pure t

/-- Embeds `DataTransformer.engineer_features` (transform.py lines 90-129): each
feature gated by its name appearing in `create_features`. -/
def dtEngineerFeatures (cfg : TConfig) (now : ℤ) (t : Table) : Except String Table :=
  (if "price_per_night" ∈ cfg.create_features then featPPN t else pure t) >>= fun t1 =>
  (if "has_availability" ∈ cfg.create_features then
      featAvailability "has_availability" t1 else pure t1) >>= fun t2 =>
  (if "review_recency" ∈ cfg.create_features then
      featRecency "review_recency" now t2 else pure t2) >>= fun t3 =>
  (if "is_superhost" ∈ cfg.create_features then featSuperhost t3 else pure t3)

/-- Embeds `DataTransformer.transform` (transform.py lines 131-150):
`clean_data` then `engineer_features`. -/
def dtTransform (cfg : TConfig) (now : ℤ) (t : Table) : Except String Table :=
  dtEngineerFeatures cfg now (dtCleanData cfg t)

/-! ### `NYC_Airbnb_ETL.transform` (src/pipeline.py lines 80-159) -/

/-- Stage 1: column-name cleanup (pipeline.py lines 96-99). -/
def nycStage1 (t : Table) : Table := renameCols nycNormalize t

/-- Stage 2: `df_clean.dropna(how='all')` (pipeline.py line 104). -/
def nycStage2 (t : Table) : Table := dropAllNullRows (nycStage1 t)

/-- Stage 3: `drop_duplicates()` (pipeline.py line 108). -/
def nycStage3 (t : Table) : Table := dedupTable (nycStage2 t)

/-- Price cleaning (pipeline.py lines 119-132).  After the `$`/`,` string
scrub, the source calls `.astype(float, errors='coerce')`; pandas validates
the `errors` kwarg of `astype` against `raise`/`ignore` before any
conversion and raises `ValueError` otherwise, so this stage raises whenever
a `price` column is present and the `between(0, 10000)` filter on line 130
is unreachable. -/
def nycPriceStep (t : Table) : Except String Table :=
  if "price" ∈ t.cols then
    .error "ValueError: Expected value of kwarg errors to be one of raise or ignore. Supplied value is coerce"
  else .ok t

/-- The whole of `NYC_Airbnb_ETL.transform`: column cleanup, empty-row and
duplicate removal, price cleaning, date parsing of `last_review` and
`host_since` (in that order, pipeline.py line 135), then the three derived
columns.  (The missing-percentage step on lines 112-116 only logs and has
no effect on the frame.) -/
def nycTransform (now : ℤ) (t : Table) : Except String Table :=
  nycPriceStep (nycStage3 t) >>= fun t4 =>
  featRecency "days_since_last_review" now
    (dateStep (dateStep t4 "last_review") "host_since") >>= fun t6 =>
  featPPN t6 >>= fun t7 =>
  featAvailability "is_available" t7

/-! ### `DataExtractor.extract_from_zip` (src/extract.py lines 20-63)

A ZIP archive is modelled as its listing: entry names paired with the table
the entry parses to (the staging extract to disk is a side effect with no
bearing on the result). -/

/-- Embeds `f.endswith('.csv')` — case-sensitive, as in extract.py line 39. -/
def endsWithCsv (name : String) : Bool :=
  ".csv".data.isSuffixOf name.data

/-- Select the tabular entry and parse it: error when the archive holds no
`.csv`-suffixed entry (`ValueError: No CSV files found in ZIP archive`),
otherwise the first such entry in archive-listing order. -/
def extractFromZip (entries : List (String × Table)) : Except String Table :=
  let csvFiles := entries.filter (fun e => endsWithCsv e.1)
  match csvFiles.head? with
  | none => .error "No CSV files found in ZIP archive"
  | some e => .ok e.2

/-! ### `DataLoader.run_quality_checks` (src/load.py lines 84-125) -/

/-- The quality report: the returned pass flag together with the
failure-class findings (logged via `logger.error`) and the warnings (logged
via `logger.warning`). -/
structure QReport where
  pass : Bool
  findings : List String
  warnings : List String
deriving DecidableEq, Repr

/-- Embeds `cell < 0` for the price check (load.py line 109): `False` for NaN and
booleans, `TypeError` for strings and timestamps compared against an int. -/
def lt0E : Value → Except String Bool
  | .num q => .ok (decide (q < 0))
  | .null => .ok false
  | .bool _ => .ok false
  | _ => .error "TypeError: comparison not supported between this dtype and int"

/-- Embeds `needle in haystack` on strings (load.py line 115). -/
def containsSub (needle hay : String) : Bool :=
  (List.range (hay.data.length + 1)).any
    (fun i => needle.data.isPrefixOf (hay.data.drop i))

def isDateV : Value → Bool
  | .date _ => true
  | _ => false

/-- Embeds `pd.api.types.is_datetime64_any_dtype(df[col])`, modelled value-wise:
a column counts as datetime-typed when it has a date value and every
non-missing value is a date.  (dtype is metadata pandas tracks separately;
the difference only affects whether a warning can fire, never the pass
flag.) -/
def isDatetimeCol (vs : List Value) : Bool :=
  vs.any isDateV && vs.all (fun v => isDateV v || v == .null)

def futureCount (now : ℤ) (vs : List Value) : Nat :=
  vs.countP (fun v => match v with
    | .date d => decide (now < d)
    | _ => false)

/-- Embeds `DataLoader.run_quality_checks`: returns `True` immediately when
disabled; otherwise the pass flag is the conjunction of the null-id and
negative-price checks, while future dates in date-typed `date`/`review`
columns only produce warnings.  The table is consumed read-only. -/
def runQualityChecks (enabled : Bool) (now : ℤ) (t : Table) : Except String QReport :=
  if enabled = false then .ok ⟨true, [], []⟩
  else
    let idFindings :=
      if "id" ∈ t.cols ∧ 0 < (getCol t "id").countP (fun v => v == .null) then
        ["null IDs found"]
      else []
    (if "price" ∈ t.cols then
        mapME lt0E (getCol t "price") >>= fun bs =>
        pure (if 0 < bs.countP id then ["negative prices found"] else [])
      else pure ([] : List String)) >>= fun priceFindings =>
    let warnings := (t.cols.filter
        (fun c => containsSub "date" c || containsSub "review" c)).filterMap
      (fun c =>
        if isDatetimeCol (getCol t c) ∧ 0 < futureCount now (getCol t c) then
          some ("future dates in " ++ c)
        else none)
    pure ⟨idFindings.isEmpty && priceFindings.isEmpty,
          idFindings ++ priceFindings, warnings⟩

/-! ### Statement-level store embedding of `DataTransformer.transform`

`clean_data` receives the caller's frame `df` and immediately takes a copy
(line 28); every later statement writes only `df_clean` (lines 31-87) —
in-place cell assignments (`df_clean[col] = ...`) included.  The store
records both references so that the write target of each embedded statement
is explicit. -/

structure CleanSt where
  df : Table
  df_clean : Table

/-- Line 28: `df_clean = df.copy()`. -/
def cleanInit (df : Table) : CleanSt := ⟨df, df⟩

/-- Lines 31-32: `df_clean.columns = [...]`. -/
def cleanStmtCols (s : CleanSt) : CleanSt :=
  { s with df_clean := renameCols dtNormalize s.df_clean }

/-- Line 36: `df_clean = df_clean.drop_duplicates()`. -/
def cleanStmtDedup (s : CleanSt) : CleanSt :=
  { s with df_clean := dedupTable s.df_clean }

/-- Lines 43-49: column pruning by missing fraction. -/
def cleanStmtMissing (cfg : TConfig) (s : CleanSt) : CleanSt :=
  { s with df_clean := dropHighMissing cfg.missing_threshold s.df_clean }

/-- Lines 52-71: the numeric-column loop. -/
def cleanStmtNumeric (cfg : TConfig) (s : CleanSt) : CleanSt :=
  { s with df_clean := cfg.numeric_cols.foldl (numericStep cfg) s.df_clean }

/-- Lines 74-79: the categorical-column loop. -/
def cleanStmtCat (cfg : TConfig) (s : CleanSt) : CleanSt :=
  { s with df_clean := cfg.categorical_cols.foldl catStep s.df_clean }

/-- Lines 82-85: the date-column loop. -/
def cleanStmtDate (cfg : TConfig) (s : CleanSt) : CleanSt :=
  { s with df_clean := cfg.date_cols.foldl dateStep s.df_clean }

def cleanRun (cfg : TConfig) (df : Table) : CleanSt :=
  cleanStmtDate cfg (cleanStmtCat cfg (cleanStmtNumeric cfg
    (cleanStmtMissing cfg (cleanStmtDedup (cleanStmtCols (cleanInit df))))))

/-- Embeds `DataTransformer.transform` run against the store: the caller's frame
after the call, paired with the returned result.  (`engineer_features`
again copies its own argument on line 101 before writing.) -/
def dtTransformRun (cfg : TConfig) (now : ℤ) (df : Table) :
    Table × Except String Table :=
  let s := cleanRun cfg df
  (s.df, dtEngineerFeatures cfg now s.df_clean)

/-! ### Proof-side reference definitions -/

/-- Every (label-visible) cell of column `c` is a genuine number — in
particular the column has no missing values. -/
def NumCol (t : Table) (c : String) : Prop :=
  ∀ v ∈ getCol t c, ∃ q : ℚ, v = .num q

def numView : Value → Option ℚ
  | .num q => some q
  | .bool b => some (if b then 1 else 0)
  | _ => none

/-- Refinement reference, following the spec's words: `price_per_night` is
price divided by `max(minimum_nights, 1)`, missing-propagating. -/
def pricePerNightSpec (p m : Value) : Value :=
  match numView p, numView m with
  | some x, some y => .num (x / max y 1)
  | _, _ => .null

/-- The pure value of `(datetime.now() - cell).dt.days` on the date-typed
cells produced by coercion (`NaT` subtraction gives `NaN`). -/
def tdDays (now : ℤ) : Value → Value
  | .date d => .num ((now - d : ℤ) : ℚ)
  | _ => .null

/-- Cells whose comparison against an int literal does not raise in pandas:
numbers, booleans and missing values. -/
def priceComparable : Value → Bool
  | .num _ => true
  | .null => true
  | .bool _ => true
  | _ => false

/-- The pure boolean `cell < 0` on comparable cells. -/
def lt0B : Value → Bool
  | .num q => decide (q < 0)
  | _ => false

/-! ### Characterising lemmas for the table operations -/

theorem colIdx?_eq_none_iff {cols : List String} {c : String} :
    colIdx? cols c = none ↔ c ∉ cols := by
  induction cols with
  | nil => simp [colIdx?]
  | cons c' cs ih =>
    by_cases h : c' = c
    · simp [colIdx?, h]
    · simp [colIdx?, h, Option.map_eq_none', ih, Ne.symm h]

theorem colIdx?_isSome_of_mem {cols : List String} {c : String} (h : c ∈ cols) :
    ∃ i, colIdx? cols c = some i := by
  rcases h' : colIdx? cols c with _ | i
  · exact absurd (colIdx?_eq_none_iff.mp h') (by simp [h])
  · exact ⟨i, rfl⟩

theorem colIdx?_lt {cols : List String} {c : String} {i : ℕ}
    (h : colIdx? cols c = some i) : i < cols.length := by
  induction cols generalizing i with
  | nil => simp [colIdx?] at h
  | cons c' cs ih =>
    by_cases hc : c' = c
    · simp [colIdx?, hc] at h ⊢
      omega
    · simp only [colIdx?, if_neg hc, Option.map_eq_some'] at h
      obtain ⟨j, hj, rfl⟩ := h
      simpa using Nat.succ_lt_succ (ih hj)

theorem colIdx?_getD {cols : List String} {c : String} {i : ℕ}
    (h : colIdx? cols c = some i) : cols.getD i "" = c := by
  induction cols generalizing i with
  | nil => simp [colIdx?] at h
  | cons c' cs ih =>
    by_cases hc : c' = c
    · simp [colIdx?, hc] at h
      simp [← h, hc]
    · simp only [colIdx?, if_neg hc, Option.map_eq_some'] at h
      obtain ⟨j, hj, rfl⟩ := h
      simpa using ih hj

theorem colIdx?_append_left {cols : List String} {c : String} {i : ℕ}
    (h : colIdx? cols c = some i) (l : List String) :
    colIdx? (cols ++ l) c = some i := by
  induction cols generalizing i with
  | nil => simp [colIdx?] at h
  | cons c' cs ih =>
    by_cases hc : c' = c
    · simp [colIdx?, hc] at h ⊢
      omega
    · simp only [colIdx?, if_neg hc, Option.map_eq_some'] at h
      obtain ⟨j, hj, rfl⟩ := h
      simp [colIdx?, if_neg hc, List.append_eq, ih hj]

theorem colIdx?_append_of_ne {cols : List String} {c c' : String}
    (h : colIdx? cols c = none) (hne : c ≠ c') :
    colIdx? (cols ++ [c']) c = none := by
  induction cols with
  | nil => simp [colIdx?, Ne.symm hne]
  | cons a cs ih =>
    by_cases ha : a = c
    · simp [colIdx?, ha] at h
    · simp only [colIdx?, if_neg ha, Option.map_eq_none'] at h
      simp [colIdx?, if_neg ha, List.append_eq, ih h]

theorem colIdx?_append_self {cols : List String} {c : String}
    (h : colIdx? cols c = none) :
    colIdx? (cols ++ [c]) c = some cols.length := by
  induction cols with
  | nil => simp [colIdx?]
  | cons a cs ih =>
    by_cases ha : a = c
    · simp [colIdx?, ha] at h
    · simp only [colIdx?, if_neg ha, Option.map_eq_none'] at h
      simp [colIdx?, if_neg ha, ih h]

theorem updateAt_cellAt_self (i : ℕ) (f : Value → Value) (r : List Value) :
    cellAt (updateAt i f r) i = f (cellAt r i) := by
  induction i generalizing r with
  | zero => cases r <;> simp [updateAt, cellAt]
  | succ i ih =>
    cases r with
    | nil => simpa [updateAt, cellAt] using ih []
    | cons v r => simpa [updateAt, cellAt] using ih r

theorem updateAt_cellAt_ne {i j : ℕ} (f : Value → Value) (r : List Value)
    (h : j ≠ i) : cellAt (updateAt i f r) j = cellAt r j := by
  induction i generalizing r j with
  | zero =>
    cases r with
    | nil =>
      cases j with
      | zero => omega
      | succ j => simp [updateAt, cellAt]
    | cons v r =>
      cases j with
      | zero => omega
      | succ j => simp [updateAt, cellAt]
  | succ i ih =>
    cases r with
    | nil =>
      cases j with
      | zero => simp [updateAt, cellAt]
      | succ j => simpa [updateAt, cellAt] using ih [] (by omega)
    | cons v r =>
      cases j with
      | zero => simp [updateAt, cellAt]
      | succ j => simpa [updateAt, cellAt] using ih r (by omega)

theorem updateAt_length {i : ℕ} (f : Value → Value) {r : List Value}
    (h : i < r.length) : (updateAt i f r).length = r.length := by
  induction i generalizing r with
  | zero => cases r with
    | nil => simp at h
    | cons v r => simp [updateAt]
  | succ i ih =>
    cases r with
    | nil => simp at h
    | cons v r => simpa [updateAt] using ih (by simpa using h)

theorem mem_zipWith {f : α → β → γ} {x : γ} {as : List α} {bs : List β}
    (h : x ∈ List.zipWith f as bs) : ∃ a ∈ as, ∃ b ∈ bs, x = f a b := by
  induction as generalizing bs with
  | nil => simp at h
  | cons a as ih =>
    cases bs with
    | nil => simp at h
    | cons b bs =>
      rcases (by simpa using h : x = f a b ∨ x ∈ List.zipWith f as bs) with h' | h'
      · exact ⟨a, by simp, b, by simp, h'⟩
      · obtain ⟨a', ha, b', hb, hx⟩ := ih h'
        exact ⟨a', by simp [ha], b', by simp [hb], hx⟩

theorem mem_zip_map {l : List α} {g : α → β} {pr : α × β}
    (h : pr ∈ l.zip (l.map g)) : ∃ a ∈ l, pr = (a, g a) := by
  induction l with
  | nil => simp at h
  | cons a as ih =>
    rcases (by simpa using h : pr = (a, g a) ∨ pr ∈ as.zip (as.map g)) with h' | h'
    · exact ⟨a, by simp, h'⟩
    · obtain ⟨a', ha, hx⟩ := ih h'
      exact ⟨a', by simp [ha], hx⟩

theorem mem_dedupAux {r : List Value} {l seen : List (List Value)}
    (h : r ∈ dedupAux l seen) : r ∈ l := by
  induction l generalizing seen with
  | nil => simp [dedupAux] at h
  | cons a as ih =>
    by_cases ha : a ∈ seen
    · simp only [dedupAux, if_pos ha] at h
      exact List.mem_cons_of_mem _ (ih h)
    · simp only [dedupAux, if_neg ha] at h
      rcases (by simpa using h : r = a ∨ r ∈ dedupAux as (a :: seen)) with h' | h'
      · simp [h']
      · exact List.mem_cons_of_mem _ (ih h')

theorem mem_dedupRows {r : List Value} {l : List (List Value)}
    (h : r ∈ dedupRows l) : r ∈ l := mem_dedupAux h

theorem cellAt_append_lt {r s : List Value} {j : ℕ} (h : j < r.length) :
    cellAt (r ++ s) j = cellAt r j := by
  induction r generalizing j with
  | nil => simp at h
  | cons v r ih =>
    cases j with
    | zero => simp [cellAt]
    | succ j => simpa [cellAt] using ih (by simpa using h)

theorem cellAt_append_len {r : List Value} (v : Value) :
    cellAt (r ++ [v]) r.length = v := by
  induction r with
  | nil => simp [cellAt]
  | cons w r ih => exact ih

theorem cellAt_default {r : List Value} {j : ℕ} (h : r.length ≤ j) :
    cellAt r j = .null := by
  induction r generalizing j with
  | nil => simp [cellAt]
  | cons v r ih =>
    cases j with
    | zero => simp at h
    | succ j => simpa [cellAt] using ih (by simpa using h)

theorem cols_mapCol (t : Table) (c : String) (f : Value → Value) :
    (mapCol t c f).cols = t.cols := by
  unfold mapCol
  rcases colIdx? t.cols c <;> rfl

theorem cols_filterCol (t : Table) (c : String) (p : Value → Bool) :
    (filterCol t c p).cols = t.cols := by
  unfold filterCol
  rcases colIdx? t.cols c <;> rfl

theorem mem_cols_setCol {t : Table} {c c' : String} {vs : List Value} :
    c ∈ (setCol t c' vs).cols ↔ c ∈ t.cols ∨ c = c' := by
  unfold setCol
  rcases h : colIdx? t.cols c' with _ | i
  · simp
  · have hc' : c' ∈ t.cols := by
      by_contra hmem
      simp [colIdx?_eq_none_iff.mpr hmem] at h
    constructor
    · exact fun hm => Or.inl hm
    · rintro (hm | rfl)
      · exact hm
      · exact hc'

theorem getCol_eq_nil_of_not_mem {t : Table} {c : String} (h : c ∉ t.cols) :
    getCol t c = [] := by
  unfold getCol
  simp [colIdx?_eq_none_iff.mpr h]

theorem getCol_length {t : Table} {c : String} (h : c ∈ t.cols) :
    (getCol t c).length = t.rows.length := by
  obtain ⟨i, hi⟩ := colIdx?_isSome_of_mem h
  unfold getCol
  simp [hi]

theorem getCol_mapCol_self (t : Table) (c : String) (f : Value → Value) :
    getCol (mapCol t c f) c = (getCol t c).map f := by
  unfold mapCol getCol
  rcases h : colIdx? t.cols c with _ | i
  · simp [h]
  · simp [h, List.map_map, Function.comp, updateAt_cellAt_self]

theorem getCol_mapCol_ne {t : Table} {c c' : String} (f : Value → Value)
    (hne : c ≠ c') : getCol (mapCol t c' f) c = getCol t c := by
  unfold mapCol getCol
  rcases h' : colIdx? t.cols c' with _ | i'
  · rfl
  · rcases h : colIdx? t.cols c with _ | j
    · simp [h]
    · have hji : j ≠ i' := by
        intro hji
        exact hne (by rw [← colIdx?_getD h, hji, colIdx?_getD h'])
      simp [h, List.map_map, Function.comp, updateAt_cellAt_ne _ _ hji]

theorem map_filter_comm (f : α → β) (p : β → Bool) (l : List α) :
    (l.filter (fun x => p (f x))).map f = (l.map f).filter p := by
  induction l with
  | nil => rfl
  | cons a as ih =>
    by_cases h : p (f a) <;> simp [h, ih]

theorem getCol_filterCol_self (t : Table) (c : String) (p : Value → Bool) :
    getCol (filterCol t c p) c = (getCol t c).filter p := by
  unfold filterCol getCol
  rcases h : colIdx? t.cols c with _ | i
  · simp [h]
  · simpa [h] using map_filter_comm (fun r => cellAt r i) p t.rows

theorem mem_getCol_filterCol {t : Table} {c c' : String} {p : Value → Bool}
    {v : Value} (h : v ∈ getCol (filterCol t c' p) c) : v ∈ getCol t c := by
  revert h
  unfold filterCol getCol
  rcases h' : colIdx? t.cols c' with _ | i'
  · exact id
  · rcases h : colIdx? t.cols c with _ | j
    · simp [h]
    · simp only [h]
      intro hv
      obtain ⟨r, hr, rfl⟩ := List.mem_map.mp hv
      exact List.mem_map.mpr ⟨r, List.mem_of_mem_filter hr, rfl⟩

theorem map_cellAt_zipWith_set (i : ℕ) :
    ∀ (rows : List (List Value)) (vs : List Value), vs.length = rows.length →
    (List.zipWith (fun r v => updateAt i (fun _ => v) r) rows vs).map
      (fun r => cellAt r i) = vs := by
  intro rows
  induction rows with
  | nil => intro vs h; simp [List.length_eq_zero.mp h]
  | cons r rows ih =>
    intro vs h
    cases vs with
    | nil => simp at h
    | cons v vs =>
      simp only [List.zipWith_cons_cons, List.map_cons, updateAt_cellAt_self]
      exact congrArg _ (ih vs (by simpa using h))

theorem map_cellAt_zipWith_set_ne {i j : ℕ} (hne : j ≠ i) :
    ∀ (rows : List (List Value)) (vs : List Value), vs.length = rows.length →
    (List.zipWith (fun r v => updateAt i (fun _ => v) r) rows vs).map
      (fun r => cellAt r j) = rows.map (fun r => cellAt r j) := by
  intro rows
  induction rows with
  | nil => intro vs h; simp
  | cons r rows ih =>
    intro vs h
    cases vs with
    | nil => simp at h
    | cons v vs =>
      simp only [List.zipWith_cons_cons, List.map_cons,
        updateAt_cellAt_ne _ _ hne]
      exact congrArg _ (ih vs (by simpa using h))

theorem map_cellAt_zipWith_append {L : ℕ} :
    ∀ (rows : List (List Value)) (vs : List Value), vs.length = rows.length →
    (∀ r ∈ rows, r.length = L) →
    (List.zipWith (fun r v => r ++ [v]) rows vs).map
      (fun r => cellAt r L) = vs := by
  intro rows
  induction rows with
  | nil => intro vs h _; simp [List.length_eq_zero.mp h]
  | cons r rows ih =>
    intro vs h hw
    cases vs with
    | nil => simp at h
    | cons v vs =>
      have hr : r.length = L := hw r (by simp)
      have hcell : cellAt (r ++ [v]) L = v := by
        rw [← hr]; exact cellAt_append_len v
      simp only [List.zipWith_cons_cons, List.map_cons, hcell]
      refine congrArg _ (ih vs (by simpa using h) ?_)
      exact fun r' hr' => hw r' (by simp [hr'])

theorem map_cellAt_zipWith_append_lt {L j : ℕ} (hj : j < L) :
    ∀ (rows : List (List Value)) (vs : List Value), vs.length = rows.length →
    (∀ r ∈ rows, r.length = L) →
    (List.zipWith (fun r v => r ++ [v]) rows vs).map
      (fun r => cellAt r j) = rows.map (fun r => cellAt r j) := by
  intro rows
  induction rows with
  | nil => intro vs h _; simp
  | cons r rows ih =>
    intro vs h hw
    cases vs with
    | nil => simp at h
    | cons v vs =>
      have hr : r.length = L := hw r (by simp)
      simp only [List.zipWith_cons_cons, List.map_cons,
        cellAt_append_lt (hr ▸ hj)]
      refine congrArg _ (ih vs (by simpa using h) ?_)
      exact fun r' hr' => hw r' (by simp [hr'])

theorem getCol_setCol_self {t : Table} {c : String} {vs : List Value}
    (hwf : t.WF) (hlen : vs.length = t.rows.length) :
    getCol (setCol t c vs) c = vs := by
  unfold setCol
  rcases h : colIdx? t.cols c with _ | i
  · unfold getCol
    simp only [colIdx?_append_self h]
    exact map_cellAt_zipWith_append t.rows vs hlen hwf
  · unfold getCol
    simp only [h]
    exact map_cellAt_zipWith_set i t.rows vs hlen

theorem getCol_setCol_ne {t : Table} {c c' : String} {vs : List Value}
    (hwf : t.WF) (hlen : vs.length = t.rows.length) (hne : c ≠ c') :
    getCol (setCol t c' vs) c = getCol t c := by
  unfold setCol
  rcases h' : colIdx? t.cols c' with _ | i'
  · rcases h : colIdx? t.cols c with _ | j
    · unfold getCol
      simp [colIdx?_append_of_ne h hne, h]
    · unfold getCol
      simp only [colIdx?_append_left h [c'], h]
      exact map_cellAt_zipWith_append_lt (colIdx?_lt h) t.rows vs hlen hwf
  · rcases h : colIdx? t.cols c with _ | j
    · unfold getCol
      simp [h]
    · have hji : j ≠ i' := by
        intro hji
        exact hne (by rw [← colIdx?_getD h, hji, colIdx?_getD h'])
      unfold getCol
      simp only [h]
      exact map_cellAt_zipWith_set_ne hji t.rows vs hlen

theorem setCol_rows_length {t : Table} {c : String} {vs : List Value}
    (hlen : vs.length = t.rows.length) :
    (setCol t c vs).rows.length = t.rows.length := by
  unfold setCol
  rcases colIdx? t.cols c with _ | i <;> simp [hlen]

theorem WF_renameCols {t : Table} (hwf : t.WF) (f : String → String) :
    (renameCols f t).WF := by
  intro r hr
  simpa [renameCols] using hwf r hr

theorem WF_dedupTable {t : Table} (hwf : t.WF) : (dedupTable t).WF :=
  fun r hr => hwf r (mem_dedupRows hr)

theorem WF_dropAllNullRows {t : Table} (hwf : t.WF) : (dropAllNullRows t).WF :=
  fun r hr => hwf r (List.mem_of_mem_filter hr)

theorem WF_dropHighMissing {t : Table} (hwf : t.WF) (thr : ℚ) :
    (dropHighMissing thr t).WF := by
  unfold dropHighMissing
  split
  · exact hwf
  · intro r hr
    obtain ⟨r', _, rfl⟩ := List.mem_map.mp hr
    simp

theorem WF_mapCol {t : Table} (hwf : t.WF) (c : String) (f : Value → Value) :
    (mapCol t c f).WF := by
  unfold mapCol
  rcases h : colIdx? t.cols c with _ | i
  · exact hwf
  · intro r hr
    obtain ⟨r', hr', rfl⟩ := List.mem_map.mp hr
    rw [updateAt_length f (by rw [hwf r' hr']; exact colIdx?_lt h)]
    exact hwf r' hr'

theorem WF_filterCol {t : Table} (hwf : t.WF) (c : String) (p : Value → Bool) :
    (filterCol t c p).WF := by
  unfold filterCol
  rcases h : colIdx? t.cols c with _ | i
  · exact hwf
  · exact fun r hr => hwf r (List.mem_of_mem_filter hr)

theorem WF_setCol {t : Table} {c : String} {vs : List Value} (hwf : t.WF)
    (_hlen : vs.length = t.rows.length) : (setCol t c vs).WF := by
  unfold setCol
  rcases h : colIdx? t.cols c with _ | i
  · intro r hr
    obtain ⟨r', hr', v, _, rfl⟩ := mem_zipWith hr
    simp [hwf r' hr']
  · intro r hr
    obtain ⟨r', hr', v, _, rfl⟩ := mem_zipWith hr
    rw [updateAt_length _ (by rw [hwf r' hr']; exact colIdx?_lt h)]
    exact hwf r' hr'

/-! ### Lemmas about the exception monad and vectorised fallible maps -/

theorem exceptBind_ok {α β : Type} {x : Except String α}
    {f : α → Except String β} {b : β} :
    (x >>= f) = .ok b ↔ ∃ a, x = .ok a ∧ f a = .ok b := by
  cases x <;> simp [Bind.bind, Except.bind]

theorem exceptPure_eq {α : Type} (a : α) :
    (pure a : Except String α) = .ok a := rfl

theorem mapME_nil {f : α → Except String β} : mapME f [] = .ok [] := rfl

theorem mapME_cons_ok {f : α → Except String β} {a : α} {as : List α}
    {l' : List β} :
    mapME f (a :: as) = .ok l' ↔
      ∃ b bs, f a = .ok b ∧ mapME f as = .ok bs ∧ l' = b :: bs := by
  cases hfa : f a with
  | error e => simp [mapME, hfa, Bind.bind, Except.bind]
  | ok b =>
    cases hms : mapME f as with
    | error e => simp [mapME, hfa, hms, Bind.bind, Except.bind]
    | ok bs =>
      simp only [mapME, hfa, hms, Bind.bind, Except.bind, Pure.pure,
        Except.pure, Except.ok.injEq]
      constructor
      · rintro rfl
        exact ⟨b, bs, rfl, rfl, rfl⟩
      · rintro ⟨b', bs', hb', hbs', rfl⟩
        cases hb'
        cases hbs'
        rfl

theorem mapME_ok_length {f : α → Except String β} :
    ∀ {l : List α} {l' : List β}, mapME f l = .ok l' → l'.length = l.length := by
  intro l
  induction l with
  | nil => intro l' h; simp [mapME] at h; simp [← h]
  | cons a as ih =>
    intro l' h
    obtain ⟨b, bs, _, hbs, rfl⟩ := mapME_cons_ok.mp h
    simp [ih hbs]

theorem mapME_eq_ok_map {f : α → Except String β} {g : α → β} :
    ∀ {l : List α}, (∀ a ∈ l, f a = .ok (g a)) → mapME f l = .ok (l.map g) := by
  intro l
  induction l with
  | nil => intro _; rfl
  | cons a as ih =>
    intro h
    exact mapME_cons_ok.mpr ⟨g a, as.map g, h a (by simp),
      ih (fun x hx => h x (by simp [hx])), rfl⟩

theorem mapME_ok_of_mem {f : α → Except String β} :
    ∀ {l : List α} {l' : List β}, mapME f l = .ok l' → ∀ b ∈ l',
      ∃ a ∈ l, f a = .ok b := by
  intro l
  induction l with
  | nil =>
    intro l' h b hb
    have hl : ([] : List β) = l' := by simpa [mapME] using h
    rw [← hl] at hb
    simp at hb
  | cons a as ih =>
    intro l' h b hb
    obtain ⟨b', bs, hb', hbs, rfl⟩ := mapME_cons_ok.mp h
    rcases (by simpa using hb : b = b' ∨ b ∈ bs) with rfl | hmem
    · exact ⟨a, by simp, hb'⟩
    · obtain ⟨a', ha', hfa⟩ := ih hbs b hmem
      exact ⟨a', by simp [ha'], hfa⟩

/-! ### The numeric-price invariant used by the Stage E claims -/


theorem numCol_of_not_mem {t : Table} {c : String} (h : c ∉ t.cols) :
    NumCol t c := by
  intro v hv
  rw [getCol_eq_nil_of_not_mem h] at hv
  simp at hv

theorem numCol_mapCol_ne {t : Table} {c c' : String} {f : Value → Value}
    (hne : c ≠ c') (h : NumCol t c) : NumCol (mapCol t c' f) c := by
  intro v hv
  exact h v (by rwa [getCol_mapCol_ne f hne] at hv)

theorem numCol_filterCol {t : Table} {c c' : String} {p : Value → Bool}
    (h : NumCol t c) : NumCol (filterCol t c' p) c :=
  fun v hv => h v (mem_getCol_filterCol hv)

theorem numCol_setCol_ne {t : Table} {c c' : String} {vs : List Value}
    (hne : c ≠ c') (h : NumCol t c) : NumCol (setCol t c' vs) c := by
  intro v hv
  revert hv
  unfold setCol
  rcases h' : colIdx? t.cols c' with _ | i'
  · rcases hc : colIdx? t.cols c with _ | j
    · unfold getCol
      simp [colIdx?_append_of_ne hc hne]
    · unfold getCol
      simp only [colIdx?_append_left hc [c']]
      intro hv
      obtain ⟨r', hr', rfl⟩ := List.mem_map.mp hv
      obtain ⟨r, hr, w, _, rfl⟩ := mem_zipWith hr'
      have hrj : cellAt r j ∈ getCol t c := by
        unfold getCol
        simp only [hc]
        exact List.mem_map.mpr ⟨r, hr, rfl⟩
      obtain ⟨q, hq⟩ := h _ hrj
      have hlt : j < r.length := by
        by_contra hge
        rw [cellAt_default (by omega)] at hq
        cases hq
      rw [cellAt_append_lt hlt]
      exact ⟨q, hq⟩
  · rcases hc : colIdx? t.cols c with _ | j
    · unfold getCol
      simp [hc]
    · have hji : j ≠ i' := by
        intro hji
        exact hne (by rw [← colIdx?_getD hc, hji, colIdx?_getD h'])
      unfold getCol
      simp only [hc]
      intro hv
      obtain ⟨r', hr', rfl⟩ := List.mem_map.mp hv
      obtain ⟨r, hr, w, _, rfl⟩ := mem_zipWith hr'
      rw [updateAt_cellAt_ne _ _ hji]
      refine h _ ?_
      unfold getCol
      simp only [hc]
      exact List.mem_map.mpr ⟨r, hr, rfl⟩

/-- Embeds `pd.to_numeric(..., errors='coerce')` leaves only numbers and missing. -/
theorem toNumericV_num_or_null (v : Value) :
    (∃ q : ℚ, toNumericV v = .num q) ∨ toNumericV v = .null := by
  cases v with
  | num q => exact Or.inl ⟨q, rfl⟩
  | bool b => exact Or.inl ⟨_, rfl⟩
  | null => exact Or.inr rfl
  | date d => exact Or.inr rfl
  | str s =>
    rcases hp : parseNum s with _ | q
    · exact Or.inr (by simp [toNumericV, hp])
    · exact Or.inl ⟨q, by simp [toNumericV, hp]⟩

theorem geZeroB_num {v : Value} (h : geZeroB v = true) : ∃ q : ℚ, v = .num q := by
  cases v <;> simp [geZeroB] at h ⊢

/-- The IQR step is either a no-op or a clip of one column. -/
theorem iqrClip_cases (t : Table) (c : String) :
    iqrClip t c = t ∨ ∃ lo hi, iqrClip t c = mapCol t c (clipV lo hi) := by
  simp only [iqrClip]
  split
  · right; exact ⟨_, _, rfl⟩
  · left; rfl

/-- Branch structure of one iteration of the numeric loop. -/
theorem numericStep_cases (cfg : TConfig) (t : Table) (c : String) :
    (c ∉ t.cols ∧ numericStep cfg t c = t) ∨
    ∃ tb, ((c = "price" ∧ tb = filterCol (mapCol t c toNumericV) c geZeroB) ∨
           (c ≠ "price" ∧ tb = mapCol t c toNumericV)) ∧
      (numericStep cfg t c = tb ∨ numericStep cfg t c = iqrClip tb c) := by
  by_cases hm : c ∈ t.cols
  · refine Or.inr ?_
    by_cases hc : c = "price"
    · subst hc
      refine ⟨filterCol (mapCol t "price" toNumericV) "price" geZeroB,
        Or.inl ⟨rfl, rfl⟩, ?_⟩
      by_cases ho : cfg.outlier_method = some "iqr"
      · right; simp [numericStep, hm, ho]
      · left; simp [numericStep, hm, ho]
    · refine ⟨mapCol t c toNumericV, Or.inr ⟨hc, rfl⟩, ?_⟩
      by_cases ho : cfg.outlier_method = some "iqr"
      · right; simp [numericStep, hm, hc, ho]
      · left; simp [numericStep, hm, hc, ho]
  · exact Or.inl ⟨hm, by simp [numericStep, hm]⟩

/-- IQR capping keeps an all-numeric price column all-numeric. -/
theorem numCol_iqrClip {t : Table} (c : String) (h : NumCol t "price") :
    NumCol (iqrClip t c) "price" := by
  rcases iqrClip_cases t c with heq | ⟨lo, hi, heq⟩
  · rwa [heq]
  · rw [heq]
    by_cases hc : c = "price"
    · subst hc
      intro v hv
      rw [getCol_mapCol_self] at hv
      obtain ⟨w, hw, rfl⟩ := List.mem_map.mp hv
      obtain ⟨q, rfl⟩ := h w hw
      exact ⟨_, rfl⟩
    · exact numCol_mapCol_ne (Ne.symm hc) h

/-- The `price` iteration of the numeric loop leaves the price column
all-numeric: coercion turns every cell into a number or NaN, and the
`>= 0` filter then removes every row whose price is NaN (or negative). -/
theorem numCol_numericStep_price (cfg : TConfig) (t : Table) :
    NumCol (numericStep cfg t "price") "price" := by
  rcases numericStep_cases cfg t "price" with ⟨hm, heq⟩ | ⟨tb, htb, heq⟩
  · rw [heq]; exact numCol_of_not_mem hm
  · have hnum : NumCol tb "price" := by
      rcases htb with ⟨_, rfl⟩ | ⟨hne, _⟩
      · intro v hv
        rw [getCol_filterCol_self] at hv
        exact geZeroB_num (List.of_mem_filter hv)
      · exact absurd rfl hne
    rcases heq with heq | heq
    · rwa [heq]
    · rw [heq]; exact numCol_iqrClip _ hnum

/-- Every iteration of the numeric loop preserves an all-numeric price
column, whichever column it processes. -/
theorem numCol_numericStep (cfg : TConfig) (t : Table) (c : String)
    (h : NumCol t "price") : NumCol (numericStep cfg t c) "price" := by
  rcases numericStep_cases cfg t c with ⟨_, heq⟩ | ⟨tb, htb, heq⟩
  · rwa [heq]
  · have hnum : NumCol tb "price" := by
      rcases htb with ⟨rfl, rfl⟩ | ⟨hne, rfl⟩
      · intro v hv
        rw [getCol_filterCol_self] at hv
        exact geZeroB_num (List.of_mem_filter hv)
      · exact numCol_mapCol_ne (Ne.symm hne) h
    rcases heq with heq | heq
    · rwa [heq]
    · rw [heq]; exact numCol_iqrClip _ hnum

theorem foldl_preserve {α β : Type} (P : β → Prop) {step : β → α → β} :
    ∀ (l : List α) (b : β), (∀ b' c, c ∈ l → P b' → P (step b' c)) → P b →
      P (l.foldl step b) := by
  intro l
  induction l with
  | nil => intro b _ hb; simpa using hb
  | cons c cs ih =>
    intro b hstep hb
    exact ih (step b c) (fun b' c' hc' => hstep b' c' (by simp [hc']))
      (hstep b c (by simp) hb)

/-- Once the numeric loop has passed the configured `price` column, the
price column is all-numeric for the rest of the loop. -/
theorem numCol_numeric_fold (cfg : TConfig) :
    ∀ (cs : List String) (t : Table), "price" ∈ cs →
      NumCol (cs.foldl (numericStep cfg) t) "price" := by
  intro cs
  induction cs with
  | nil => intro t h; simp at h
  | cons c cs ih =>
    intro t h
    simp only [List.foldl_cons]
    by_cases hc : c = "price"
    · subst hc
      exact foldl_preserve (fun tb => NumCol tb "price") cs _
        (fun t' c' _ h' => numCol_numericStep cfg t' c' h')
        (numCol_numericStep_price cfg t)
    · exact ih _ (by rcases (by simpa using h) with h' | h' <;> tauto)

theorem numCol_catStep {t : Table} {c : String} (hne : c ≠ "price")
    (h : NumCol t "price") : NumCol (catStep t c) "price" := by
  unfold catStep
  split
  · exact numCol_mapCol_ne (Ne.symm hne) h
  · exact h

theorem numCol_dateStep {t : Table} {c : String} (hne : c ≠ "price")
    (h : NumCol t "price") : NumCol (dateStep t c) "price" := by
  unfold dateStep
  split
  · exact numCol_mapCol_ne (Ne.symm hne) h
  · exact h

/-- After `clean_data` with `price` configured numeric (and not configured
categorical or date), the price column contains only genuine numbers. -/
theorem numCol_dtCleanData (cfg : TConfig) (t : Table)
    (h1 : "price" ∈ cfg.numeric_cols) (h2 : "price" ∉ cfg.categorical_cols)
    (h3 : "price" ∉ cfg.date_cols) : NumCol (dtCleanData cfg t) "price" := by
  simp only [dtCleanData]
  refine foldl_preserve (fun tb => NumCol tb "price") _ _
    (fun t' c hc h' => numCol_dateStep ?_ h') ?_
  · intro hceq; exact h3 (hceq ▸ hc)
  refine foldl_preserve (fun tb => NumCol tb "price") _ _
    (fun t' c hc h' => numCol_catStep ?_ h') ?_
  · intro hceq; exact h2 (hceq ▸ hc)
  exact numCol_numeric_fold cfg _ _ h1

theorem numCol_featPPN {t out : Table} (h : NumCol t "price")
    (hf : featPPN t = .ok out) : NumCol out "price" := by
  unfold featPPN at hf
  split at hf
  · obtain ⟨mn, _, hf⟩ := exceptBind_ok.mp hf
    obtain ⟨vals, _, hf⟩ := exceptBind_ok.mp hf
    have : setCol t "price_per_night" vals = out := by
      simpa [exceptPure_eq] using hf
    rw [← this]
    exact numCol_setCol_ne (by decide) h
  · have : t = out := by simpa [exceptPure_eq] using hf
    rwa [← this]

theorem numCol_featAvailability {t out : Table} {colName : String}
    (hname : "price" ≠ colName) (h : NumCol t "price")
    (hf : featAvailability colName t = .ok out) : NumCol out "price" := by
  unfold featAvailability at hf
  split at hf
  · obtain ⟨vals, _, hf⟩ := exceptBind_ok.mp hf
    have : setCol t colName vals = out := by simpa [exceptPure_eq] using hf
    rw [← this]
    exact numCol_setCol_ne hname h
  · have : t = out := by simpa [exceptPure_eq] using hf
    rwa [← this]

theorem numCol_featRecency {t out : Table} {colName : String} {now : ℤ}
    (hname : "price" ≠ colName) (h : NumCol t "price")
    (hf : featRecency colName now t = .ok out) : NumCol out "price" := by
  unfold featRecency at hf
  split at hf
  · obtain ⟨vals, _, hf⟩ := exceptBind_ok.mp hf
    have hout : setCol (setCol t colName vals) colName
        ((getCol (setCol t colName vals) colName).map fillNegOne) = out := by
      simpa [exceptPure_eq] using hf
    rw [← hout]
    exact numCol_setCol_ne hname (numCol_setCol_ne hname h)
  · have : t = out := by simpa [exceptPure_eq] using hf
    rwa [← this]

theorem numCol_featSuperhost {t out : Table} (h : NumCol t "price")
    (hf : featSuperhost t = .ok out) : NumCol out "price" := by
  unfold featSuperhost at hf
  split at hf
  · obtain ⟨nr, _, hf⟩ := exceptBind_ok.mp hf
    obtain ⟨lhs, _, hf⟩ := exceptBind_ok.mp hf
    obtain ⟨ch, _, hf⟩ := exceptBind_ok.mp hf
    obtain ⟨rhs, _, hf⟩ := exceptBind_ok.mp hf
    have : setCol t "is_superhost" ((lhs.zip rhs).map
        (fun p => .bool (p.1 && p.2))) = out := by
      simpa [exceptPure_eq] using hf
    rw [← this]
    exact numCol_setCol_ne (by decide) h
  · have : t = out := by simpa [exceptPure_eq] using hf
    rwa [← this]

/-- Feature engineering never writes the `price` column, so it keeps the
price column all-numeric whenever it succeeds. -/
theorem numCol_dtEngineerFeatures {cfg : TConfig} {now : ℤ} {t out : Table}
    (h : NumCol t "price") (hf : dtEngineerFeatures cfg now t = .ok out) :
    NumCol out "price" := by
  unfold dtEngineerFeatures at hf
  obtain ⟨t1, ht1, hf⟩ := exceptBind_ok.mp hf
  obtain ⟨t2, ht2, hf⟩ := exceptBind_ok.mp hf
  obtain ⟨t3, ht3, hf⟩ := exceptBind_ok.mp hf
  have h1 : NumCol t1 "price" := by
    split at ht1
    · exact numCol_featPPN h ht1
    · have : t = t1 := by simpa [exceptPure_eq] using ht1
      rwa [← this]
  have h2 : NumCol t2 "price" := by
    split at ht2
    · exact numCol_featAvailability (by decide) h1 ht2
    · have : t1 = t2 := by simpa [exceptPure_eq] using ht2
      rwa [← this]
  have h3 : NumCol t3 "price" := by
    split at ht3
    · exact numCol_featRecency (by decide) h2 ht3
    · have : t2 = t3 := by simpa [exceptPure_eq] using ht3
      rwa [← this]
  split at hf
  · exact numCol_featSuperhost h3 hf
  · have : t3 = out := by simpa [exceptPure_eq] using hf
    rwa [← this]

/-! ### Claim theorems -/

/-- Claim C10: for every input table with a `price` column configured as a
numeric column (and not also configured categorical or date), a row whose
price fails numeric coercion becomes missing and is then removed by the
`>= 0` price filter together with the negative-price rows, so the table
returned by `DataTransformer.transform` contains no row with a missing
price — every surviving price cell is a genuine number. -/
theorem c10_no_missing_price (cfg : TConfig) (now : ℤ) (t out : Table)
    (h1 : "price" ∈ cfg.numeric_cols) (h2 : "price" ∉ cfg.categorical_cols)
    (h3 : "price" ∉ cfg.date_cols) (h : dtTransform cfg now t = .ok out) :
    ∀ v ∈ getCol out "price", ∃ q : ℚ, v = .num q :=
  numCol_dtEngineerFeatures (numCol_dtCleanData cfg t h1 h2 h3) h

/-- Witness for C10: a concrete run with an unparseable price (`"abc"`), a
parseable one (`"100"`), a negative one and a large one; the returned table
retains only genuine numbers in the price column. -/
theorem c10_no_missing_price_witness : ∃ q : ℚ, Value.num 20000 = Value.num q :=
  c10_no_missing_price ⟨1 / 2, ["price"], [], [], none, []⟩ 0
    ⟨["price"], [[.str "abc"], [.str "100"], [.num (-5)], [.num 20000]]⟩
    ⟨["price"], [[.num 100], [.num 20000]]⟩
    (by decide) (by decide) (by decide) (by rfl)
    (Value.num 20000) (by decide)

/-- Claim C1 (code bug): `NYC_Airbnb_ETL.transform` is claimed to filter the
price column to the range [0, 10000]; in fact the preceding statement
`.astype(float, errors='coerce')` passes an `errors` value that `astype`
rejects (`raise`/`ignore` are the only legal ones), so the method raises
`ValueError` on every table that has a `price` column — here one with the
single in-range price 100 — and the range filter on pipeline.py line 130 is
unreachable. -/
theorem c1_price_stage_raises :
    nycTransform 0 ⟨["price"], [[.num 100]]⟩ =
      .error "ValueError: Expected value of kwarg errors to be one of raise or ignore. Supplied value is coerce" := by
  rfl

/-- Claim C2 (code bug): `DataTransformer.transform` is claimed never to
raise, with `is_superhost` computed only when every column it reads exists;
in fact the guard (transform.py line 121) checks `host_name` and
`number_of_reviews` while the computation (line 125) reads
`calculated_host_listings_count`, so a table having the first two columns
but not the third makes `transform` raise `KeyError`. -/
theorem c2_superhost_keyerror :
    dtTransform ⟨1 / 2, [], [], [], none, ["is_superhost"]⟩ 0
      ⟨["host_name", "number_of_reviews"], [[.str "Bob", .num 60]]⟩ =
      .error "KeyError: calculated_host_listings_count" := by
  rfl

theorem filter_head?_eq_find? {α : Type} (p : α → Bool) (l : List α) :
    (l.filter p).head? = l.find? p := by
  induction l with
  | nil => rfl
  | cons a as ih =>
    by_cases h : p a <;> simp [h, ih]

/-- Claim C9: archive extraction fails with the no-tabular-data error exactly
when no entry name is `.csv`-suffixed, and otherwise deterministically parses
the first `.csv`-suffixed entry in archive-listing order; in particular with
entries listed `b.csv` before `a.csv` it selects `b.csv`, not the
alphabetically first. -/
theorem c9_extract_selection :
    (∀ entries : List (String × Table),
      extractFromZip entries =
        match entries.find? (fun e => endsWithCsv e.1) with
        | none => .error "No CSV files found in ZIP archive"
        | some e => .ok e.2) ∧
    extractFromZip [("b.csv", ⟨["b"], []⟩), ("a.csv", ⟨["a"], []⟩)] =
      .ok ⟨["b"], []⟩ := by
  constructor
  · intro entries
    simp only [extractFromZip]
    rw [filter_head?_eq_find?]
  · rfl

/-- Claim C8: `DataTransformer.transform` is pure with respect to its
argument: run against the statement-level store (whose every write targets
the copy taken on transform.py line 28), the caller's frame is unchanged
after the call, and the result agrees with the pure transform. -/
theorem c8_transform_pure (cfg : TConfig) (now : ℤ) (df : Table) :
    (dtTransformRun cfg now df).1 = df ∧
    (dtTransformRun cfg now df).2 = dtTransform cfg now df :=
  ⟨rfl, rfl⟩

/-- Claim C4 (counterexample): Stage B does drop rows that are fully null
when it runs, but a later stage can create one: a sole `host_since` cell
holding the unparseable string `xyz` survives Stage B and is turned into
NaT by date coercion, so the returned table contains a fully-empty row —
refuting the claim that no fully-empty row appears in the output. -/
theorem c4_counterexample :
    nycTransform 0 ⟨["host_since"], [[.str "xyz"]]⟩ =
      .ok ⟨["host_since"], [[.null]]⟩ ∧
    rowAllNull [Value.null] = true :=
  ⟨rfl, rfl⟩

/-- Claim C4 (amended): Stage B of `NYC_Airbnb_ETL.transform` drops every
row that is fully null at that point, so no row of the Stage B output is
fully empty; fully-empty rows in the final output can only be re-created by
the later date coercion. -/
theorem c4_amended (t : Table) :
    ∀ r ∈ (nycStage2 t).rows, rowAllNull r = false := by
  intro r hr
  have h := List.mem_filter.mp hr
  simpa using h.2

/-- Witness for C4 (amended) at a concrete table. -/
theorem c4_amended_witness : rowAllNull [Value.num 1] = false :=
  c4_amended ⟨["a"], [[.num 1]]⟩ [Value.num 1] (by decide)

theorem cols_iqrClip (t : Table) (c : String) : (iqrClip t c).cols = t.cols := by
  rcases iqrClip_cases t c with heq | ⟨lo, hi, heq⟩ <;>
    simp [heq, cols_mapCol]

theorem cols_numericStep (cfg : TConfig) (t : Table) (c : String) :
    (numericStep cfg t c).cols = t.cols := by
  rcases numericStep_cases cfg t c with ⟨_, heq⟩ | ⟨tb, htb, heq⟩
  · rw [heq]
  · have hcols : tb.cols = t.cols := by
      rcases htb with ⟨_, rfl⟩ | ⟨_, rfl⟩ <;>
        simp [cols_filterCol, cols_mapCol]
    rcases heq with heq | heq <;> rw [heq]
    · exact hcols
    · rw [cols_iqrClip, hcols]

theorem cols_catStep (t : Table) (c : String) : (catStep t c).cols = t.cols := by
  unfold catStep
  split
  · exact cols_mapCol t c _
  · rfl

theorem cols_dateStep (t : Table) (c : String) : (dateStep t c).cols = t.cols := by
  unfold dateStep
  split
  · exact cols_mapCol t c _
  · rfl

theorem mem_cols_dropHighMissing {t : Table} {c : String} {thr : ℚ}
    (h : c ∈ (dropHighMissing thr t).cols) : c ∈ t.cols := by
  revert h
  unfold dropHighMissing
  split
  · exact id
  · intro h
    obtain ⟨i, hi, rfl⟩ := List.mem_map.mp h
    have hlt : i < t.cols.length := by
      have h2 : i < t.cols.length ∧
          (nullCountAt t i : ℚ) / (t.rows.length : ℚ) ≤ thr := by simpa using hi
      exact h2.1
    rw [List.getD_eq_getElem _ _ hlt]
    exact List.getElem_mem _

/-- Claim C5 (counterexample): `DataTransformer.clean_data` trims,
lower-cases and replaces spaces, but leaves a hyphen in place —
`" Room-Type "` normalizes to `"room-type"`, not `"room_type"` as the
claimed space-and-hyphen replacement would produce. -/
theorem c5_counterexample :
    (dtCleanData ⟨1 / 2, [], [], [], none, []⟩
        ⟨[" Room-Type "], [[.str "x"]]⟩).cols = ["room-type"] ∧
    ("room-type" : String) ≠ "room_type" :=
  ⟨rfl, by decide⟩

theorem nycPriceStep_ok {t out : Table} (h : nycPriceStep t = .ok out) :
    out = t ∧ "price" ∉ t.cols := by
  unfold nycPriceStep at h
  split at h
  · cases h
  · exact ⟨(Except.ok.injEq _ _).mp h |>.symm, by assumption⟩

theorem mem_cols_featPPN {t out : Table} {c : String}
    (h : featPPN t = .ok out) (hc : c ∈ out.cols) :
    c ∈ t.cols ∨ c = "price_per_night" := by
  unfold featPPN at h
  split at h
  · obtain ⟨mn, _, h⟩ := exceptBind_ok.mp h
    obtain ⟨vals, _, h⟩ := exceptBind_ok.mp h
    have hout : setCol t "price_per_night" vals = out := by
      simpa [exceptPure_eq] using h
    rw [← hout] at hc
    exact mem_cols_setCol.mp hc
  · have hout : t = out := by simpa [exceptPure_eq] using h
    exact Or.inl (hout ▸ hc)

theorem mem_cols_featAvailability {t out : Table} {c colName : String}
    (h : featAvailability colName t = .ok out) (hc : c ∈ out.cols) :
    c ∈ t.cols ∨ c = colName := by
  unfold featAvailability at h
  split at h
  · obtain ⟨vals, _, h⟩ := exceptBind_ok.mp h
    have hout : setCol t colName vals = out := by simpa [exceptPure_eq] using h
    rw [← hout] at hc
    exact mem_cols_setCol.mp hc
  · have hout : t = out := by simpa [exceptPure_eq] using h
    exact Or.inl (hout ▸ hc)

theorem mem_cols_featRecency {t out : Table} {c colName : String} {now : ℤ}
    (h : featRecency colName now t = .ok out) (hc : c ∈ out.cols) :
    c ∈ t.cols ∨ c = colName := by
  unfold featRecency at h
  split at h
  · obtain ⟨vals, _, h⟩ := exceptBind_ok.mp h
    have hout : setCol (setCol t colName vals) colName
        ((getCol (setCol t colName vals) colName).map fillNegOne) = out := by
      simpa [exceptPure_eq] using h
    rw [← hout] at hc
    rcases mem_cols_setCol.mp hc with hc' | hc'
    · exact mem_cols_setCol.mp hc'
    · exact Or.inr hc'
  · have hout : t = out := by simpa [exceptPure_eq] using h
    exact Or.inl (hout ▸ hc)

/-- Claim C5 (amended): every column of `DataTransformer.clean_data`'s
output is some input column name trimmed, lower-cased and with spaces (only)
replaced by underscores; the `NYC_Airbnb_ETL.transform` variant additionally
replaces hyphens, and its output columns are such normalizations of input
columns or one of the three derived-column names. -/
theorem c5_amended :
    (∀ (cfg : TConfig) (t : Table), ∀ c ∈ (dtCleanData cfg t).cols,
      ∃ c0 ∈ t.cols, c = dtNormalize c0) ∧
    (∀ (now : ℤ) (t out : Table), nycTransform now t = .ok out →
      ∀ c ∈ out.cols, (∃ c0 ∈ t.cols, c = nycNormalize c0) ∨
        c ∈ ["days_since_last_review", "price_per_night", "is_available"]) := by
  constructor
  · intro cfg t c hc
    have hfold : ∀ (l : List String) (t' : Table),
        (l.foldl (numericStep cfg) t').cols = t'.cols := by
      intro l t'
      refine foldl_preserve (fun tb => tb.cols = t'.cols) l t' ?_ rfl
      intro b' c' _ hb
      rw [cols_numericStep, hb]
    have hfoldc : ∀ (l : List String) (t' : Table),
        (l.foldl catStep t').cols = t'.cols := by
      intro l t'
      refine foldl_preserve (fun tb => tb.cols = t'.cols) l t' ?_ rfl
      intro b' c' _ hb
      rw [cols_catStep, hb]
    have hfoldd : ∀ (l : List String) (t' : Table),
        (l.foldl dateStep t').cols = t'.cols := by
      intro l t'
      refine foldl_preserve (fun tb => tb.cols = t'.cols) l t' ?_ rfl
      intro b' c' _ hb
      rw [cols_dateStep, hb]
    simp only [dtCleanData] at hc
    rw [hfoldd, hfoldc, hfold] at hc
    have hc' := mem_cols_dropHighMissing hc
    have : c ∈ (renameCols dtNormalize t).cols := hc'
    simp only [renameCols] at this
    obtain ⟨c0, hc0, rfl⟩ := List.mem_map.mp this
    exact ⟨c0, hc0, rfl⟩
  · intro now t out h c hc
    unfold nycTransform at h
    obtain ⟨t4, ht4, h⟩ := exceptBind_ok.mp h
    obtain ⟨t6, ht6, h⟩ := exceptBind_ok.mp h
    obtain ⟨t7, ht7, h⟩ := exceptBind_ok.mp h
    obtain ⟨hteq, _⟩ := nycPriceStep_ok ht4
    rcases mem_cols_featAvailability h hc with hc7 | hc7
    · rcases mem_cols_featPPN ht7 hc7 with hc6 | hc6
      · rcases mem_cols_featRecency ht6 hc6 with hc5 | hc5
        · rw [cols_dateStep, cols_dateStep, hteq] at hc5
          have : c ∈ (renameCols nycNormalize t).cols := hc5
          simp only [renameCols] at this
          obtain ⟨c0, hc0, rfl⟩ := List.mem_map.mp this
          exact Or.inl ⟨c0, hc0, rfl⟩
        · exact Or.inr (by simp [hc5])
      · exact Or.inr (by simp [hc6])
    · exact Or.inr (by simp [hc7])

/-- Witness for C5 (amended) at concrete tables for both variants. -/
theorem c5_amended_witness :
    (∃ c0 ∈ ([" Room-Type "] : List String), "room-type" = dtNormalize c0) ∧
    ((∃ c0 ∈ (["Host Since"] : List String), "host_since" = nycNormalize c0) ∨
      "host_since" ∈ ["days_since_last_review", "price_per_night", "is_available"]) :=
  ⟨c5_amended.1 ⟨1 / 2, [], [], [], none, []⟩ ⟨[" Room-Type "], [[.str "x"]]⟩
      "room-type" (by decide),
    c5_amended.2 0 ⟨["Host Since"], [[.str "x"]]⟩ ⟨["host_since"], [[.null]]⟩
      (by rfl) "host_since" (by decide)⟩

theorem getColE_ok {t : Table} {c : String} {vs : List Value}
    (h : getColE t c = .ok vs) : vs = getCol t c ∧ c ∈ t.cols := by
  unfold getColE at h
  rcases hc : colIdx? t.cols c with _ | i
  · rw [hc] at h; cases h
  · rw [hc] at h
    refine ⟨?_, ?_⟩
    · unfold getCol
      rw [hc]
      exact ((Except.ok.injEq _ _).mp h).symm
    · by_contra hmem
      simp [colIdx?_eq_none_iff.mpr hmem] at hc

theorem featPPN_frame {t out : Table} (hwf : t.WF) (h : featPPN t = .ok out)
    {c : String} (hne : c ≠ "price_per_night") :
    getCol out c = getCol t c ∧ out.WF := by
  unfold featPPN at h
  by_cases hg : "price" ∈ t.cols ∧ "minimum_nights" ∈ t.cols
  · rw [if_pos hg] at h
    obtain ⟨mn, hmn, h⟩ := exceptBind_ok.mp h
    obtain ⟨vals, hvals, h⟩ := exceptBind_ok.mp h
    have hout : setCol t "price_per_night" vals = out := by
      simpa [exceptPure_eq] using h
    have hlmn : mn.length = t.rows.length := by
      rw [mapME_ok_length hmn, getCol_length hg.2]
    have hlv : vals.length = t.rows.length := by
      rw [mapME_ok_length hvals, List.length_zip, getCol_length hg.1, hlmn]
      exact Nat.min_self _
    subst hout
    exact ⟨getCol_setCol_ne hwf hlv hne, WF_setCol hwf hlv⟩
  · rw [if_neg hg] at h
    have hout : t = out := by simpa [exceptPure_eq] using h
    subst hout
    exact ⟨rfl, hwf⟩

theorem featAvailability_frame {t out : Table} {colName : String} (hwf : t.WF)
    (h : featAvailability colName t = .ok out) {c : String} (hne : c ≠ colName) :
    getCol out c = getCol t c ∧ out.WF := by
  unfold featAvailability at h
  by_cases hg : "availability_365" ∈ t.cols
  · rw [if_pos hg] at h
    obtain ⟨vals, hvals, h⟩ := exceptBind_ok.mp h
    have hout : setCol t colName vals = out := by simpa [exceptPure_eq] using h
    have hlv : vals.length = t.rows.length := by
      rw [mapME_ok_length hvals, getCol_length hg]
    subst hout
    exact ⟨getCol_setCol_ne hwf hlv hne, WF_setCol hwf hlv⟩
  · rw [if_neg hg] at h
    have hout : t = out := by simpa [exceptPure_eq] using h
    subst hout
    exact ⟨rfl, hwf⟩

theorem featRecency_frame {t out : Table} {colName : String} {now : ℤ}
    (hwf : t.WF) (h : featRecency colName now t = .ok out) {c : String}
    (hne : c ≠ colName) : getCol out c = getCol t c ∧ out.WF := by
  unfold featRecency at h
  by_cases hg : "last_review" ∈ t.cols
  · rw [if_pos hg] at h
    obtain ⟨vals, hvals, h⟩ := exceptBind_ok.mp h
    have hout : setCol (setCol t colName vals) colName
        ((getCol (setCol t colName vals) colName).map fillNegOne) = out := by
      simpa [exceptPure_eq] using h
    have hlv : vals.length = t.rows.length := by
      rw [mapME_ok_length hvals, getCol_length hg]
    have hwf1 : (setCol t colName vals).WF := WF_setCol hwf hlv
    have hlv2 : ((getCol (setCol t colName vals) colName).map fillNegOne).length =
        (setCol t colName vals).rows.length := by
      rw [List.length_map,
        getCol_length (mem_cols_setCol.mpr (Or.inr rfl))]
    subst hout
    refine ⟨?_, WF_setCol hwf1 hlv2⟩
    rw [getCol_setCol_ne hwf1 hlv2 hne, getCol_setCol_ne hwf hlv hne]
  · rw [if_neg hg] at h
    have hout : t = out := by simpa [exceptPure_eq] using h
    subst hout
    exact ⟨rfl, hwf⟩

theorem featSuperhost_frame {t out : Table} (hwf : t.WF)
    (h : featSuperhost t = .ok out) {c : String} (hne : c ≠ "is_superhost") :
    getCol out c = getCol t c ∧ out.WF := by
  unfold featSuperhost at h
  by_cases hg : "host_name" ∈ t.cols ∧ "number_of_reviews" ∈ t.cols
  · rw [if_pos hg] at h
    obtain ⟨nr, hnr, h⟩ := exceptBind_ok.mp h
    obtain ⟨lhs, hlhs, h⟩ := exceptBind_ok.mp h
    obtain ⟨ch, hch, h⟩ := exceptBind_ok.mp h
    obtain ⟨rhs, hrhs, h⟩ := exceptBind_ok.mp h
    have hout : setCol t "is_superhost"
        ((lhs.zip rhs).map (fun p => .bool (p.1 && p.2))) = out := by
      simpa [exceptPure_eq] using h
    obtain ⟨hnrv, _⟩ := getColE_ok hnr
    obtain ⟨hchv, hchm⟩ := getColE_ok hch
    have hllhs : lhs.length = t.rows.length := by
      rw [mapME_ok_length hlhs, hnrv, getCol_length hg.2]
    have hlrhs : rhs.length = t.rows.length := by
      rw [mapME_ok_length hrhs, hchv, getCol_length hchm]
    have hlv : ((lhs.zip rhs).map (fun p : Bool × Bool => Value.bool (p.1 && p.2))).length =
        t.rows.length := by
      rw [List.length_map, List.length_zip, hllhs, hlrhs]
      exact Nat.min_self _
    subst hout
    exact ⟨getCol_setCol_ne hwf hlv hne, WF_setCol hwf hlv⟩
  · rw [if_neg hg] at h
    have hout : t = out := by simpa [exceptPure_eq] using h
    subst hout
    exact ⟨rfl, hwf⟩

/-! ### Claim C7: the price-per-night formula -/


theorem clip_div_spec {p m m' v : Value} (hclip : clipLower1E m = .ok m')
    (hdiv : divPairE (p, m') = .ok v) : v = pricePerNightSpec p m := by
  cases m <;> simp only [clipLower1E] at hclip <;> cases hclip <;>
    cases p <;>
    simp_all [divPairE, toNumForArith, pricePerNightSpec, numView,
      Bind.bind, Except.bind, exceptPure_eq]

theorem clipLower1E_ge_one {m m' : Value} (h : clipLower1E m = .ok m') :
    ∀ q : ℚ, m' = .num q → 1 ≤ q := by
  intro q hq
  subst hq
  cases m <;> simp only [clipLower1E] at h <;> cases h
  · exact le_max_right _ _
  · exact le_max_right _ _

theorem vals_eq_zipWith_spec :
    ∀ (ms ps mn vals : List Value), mapME clipLower1E ms = .ok mn →
      mapME divPairE (ps.zip mn) = .ok vals →
      vals = List.zipWith pricePerNightSpec ps ms := by
  intro ms
  induction ms with
  | nil =>
    intro ps mn vals hmn hvals
    have hmn' : ([] : List Value) = mn := by simpa [mapME] using hmn
    rw [← hmn', List.zip_nil_right] at hvals
    have : ([] : List Value) = vals := by simpa [mapME] using hvals
    simp [← this]
  | cons m ms ih =>
    intro ps mn vals hmn hvals
    obtain ⟨m', mn', hm', hmn', rfl⟩ := mapME_cons_ok.mp hmn
    cases ps with
    | nil =>
      have : ([] : List Value) = vals := by simpa [mapME] using hvals
      simp [← this]
    | cons p ps' =>
      rw [List.zip_cons_cons] at hvals
      obtain ⟨v, vs, hv, hvs, rfl⟩ := mapME_cons_ok.mp hvals
      rw [List.zipWith_cons_cons, clip_div_spec hm' hv, ih ps' mn' vs hmn' hvs]

/-- Claim C7: for every well-formed input table containing both `price` and
`minimum_nights` columns (and `price_per_night` configured), whenever
feature engineering succeeds, the derived `price_per_night` column equals
`price ÷ max(minimum_nights, 1)` row-by-row (missing-propagating), and the
clipped divisor the code divides by is never below 1 — including for
`minimum_nights ≤ 0` (floored to 1) and missing (no division happens). -/
theorem c7_price_per_night (cfg : TConfig) (now : ℤ) (t out : Table)
    (hwf : t.WF) (hfeat : "price_per_night" ∈ cfg.create_features)
    (hp : "price" ∈ t.cols) (hm : "minimum_nights" ∈ t.cols)
    (h : dtEngineerFeatures cfg now t = .ok out) :
    getCol out "price_per_night" =
      List.zipWith pricePerNightSpec (getCol t "price")
        (getCol t "minimum_nights") ∧
    (∀ m m', clipLower1E m = .ok m' → ∀ q : ℚ, m' = .num q → 1 ≤ q) := by
  refine ⟨?_, fun m m' hc => clipLower1E_ge_one hc⟩
  unfold dtEngineerFeatures at h
  obtain ⟨t1, ht1, h⟩ := exceptBind_ok.mp h
  obtain ⟨t2, ht2, h⟩ := exceptBind_ok.mp h
  obtain ⟨t3, ht3, h⟩ := exceptBind_ok.mp h
  rw [if_pos hfeat] at ht1
  have hguard : "price" ∈ t.cols ∧ "minimum_nights" ∈ t.cols := ⟨hp, hm⟩
  unfold featPPN at ht1
  rw [if_pos hguard] at ht1
  obtain ⟨mn, hmn, ht1⟩ := exceptBind_ok.mp ht1
  obtain ⟨vals, hvals, ht1⟩ := exceptBind_ok.mp ht1
  have hout1 : setCol t "price_per_night" vals = t1 := by
    simpa [exceptPure_eq] using ht1
  have hlmn : mn.length = t.rows.length := by
    rw [mapME_ok_length hmn, getCol_length hm]
  have hlv : vals.length = t.rows.length := by
    rw [mapME_ok_length hvals, List.length_zip, getCol_length hp, hlmn]
    exact Nat.min_self _
  have hv1 : getCol t1 "price_per_night" = vals := by
    rw [← hout1]
    exact getCol_setCol_self hwf hlv
  have hwf1 : t1.WF := hout1 ▸ WF_setCol hwf hlv
  have step2 : getCol t2 "price_per_night" = vals ∧ t2.WF := by
    split at ht2
    · obtain ⟨heq, hwf2⟩ := featAvailability_frame hwf1 ht2
        (show ("price_per_night" : String) ≠ "has_availability" by decide)
      exact ⟨heq.trans hv1, hwf2⟩
    · have : t1 = t2 := by simpa [exceptPure_eq] using ht2
      exact this ▸ ⟨hv1, hwf1⟩
  have step3 : getCol t3 "price_per_night" = vals ∧ t3.WF := by
    split at ht3
    · obtain ⟨heq, hwf3⟩ := featRecency_frame step2.2 ht3
        (show ("price_per_night" : String) ≠ "review_recency" by decide)
      exact ⟨heq.trans step2.1, hwf3⟩
    · have : t2 = t3 := by simpa [exceptPure_eq] using ht3
      exact this ▸ step2
  have stepOut : getCol out "price_per_night" = vals := by
    split at h
    · obtain ⟨heq, _⟩ := featSuperhost_frame step3.2 h
        (show ("price_per_night" : String) ≠ "is_superhost" by decide)
      exact heq.trans step3.1
    · have : t3 = out := by simpa [exceptPure_eq] using h
      exact this ▸ step3.1
  rw [stepOut]
  exact vals_eq_zipWith_spec _ _ _ _ hmn hvals

/-- Witness for C7: `minimum_nights = 0` is floored to divisor 1, giving
`price_per_night = 100` for `price = 100`. -/
theorem c7_price_per_night_witness :
    getCol ⟨["price", "minimum_nights", "price_per_night"],
        [[.num 100, .num 0, .num 100]]⟩ "price_per_night" =
      List.zipWith pricePerNightSpec [Value.num 100] [Value.num 0] ∧
    (∀ m m', clipLower1E m = .ok m' → ∀ q : ℚ, m' = .num q → 1 ≤ q) :=
  c7_price_per_night ⟨1 / 2, [], [], [], none, ["price_per_night"]⟩ 0
    ⟨["price", "minimum_nights"], [[.num 100, .num 0]]⟩
    ⟨["price", "minimum_nights", "price_per_night"],
      [[.num 100, .num 0, .num 100]]⟩
    (by decide) (by decide) (by decide) (by decide) (by rfl)

/-! ### Claim C3: the review-recency column -/


theorem subDaysE_ok_of_dateOrNull {now : ℤ} {v : Value}
    (h : (∃ d : ℤ, v = .date d) ∨ v = .null) :
    subDaysE now v = .ok (tdDays now v) := by
  rcases h with ⟨d, rfl⟩ | rfl <;> rfl

theorem toDatetimeV_date_or_null (v : Value) :
    (∃ d : ℤ, toDatetimeV v = .date d) ∨ toDatetimeV v = .null := by
  cases v with
  | date d => exact Or.inl ⟨d, rfl⟩
  | null => exact Or.inr rfl
  | bool b => exact Or.inr rfl
  | num q => exact Or.inl ⟨_, rfl⟩
  | str s =>
    rcases hp : parseDate s with _ | d
    · exact Or.inr (by simp [toDatetimeV, hp])
    · exact Or.inl ⟨d, by simp [toDatetimeV, hp]⟩

theorem WF_dateStep {t : Table} (hwf : t.WF) (c : String) : (dateStep t c).WF := by
  unfold dateStep
  split
  · exact WF_mapCol hwf c _
  · exact hwf

theorem getCol_dateStep_ne {t : Table} {c c' : String} (hne : c ≠ c') :
    getCol (dateStep t c') c = getCol t c := by
  unfold dateStep
  split
  · exact getCol_mapCol_ne _ hne
  · rfl

theorem getCol_dateStep_self {t : Table} {c : String} (hm : c ∈ t.cols) :
    getCol (dateStep t c) c = (getCol t c).map toDatetimeV := by
  unfold dateStep
  rw [if_pos hm]
  exact getCol_mapCol_self t c _

theorem WF_nycStage3 {t : Table} (hwf : t.WF) : (nycStage3 t).WF :=
  WF_dedupTable (WF_dropAllNullRows (WF_renameCols hwf _))

/-- Claim C3 (counterexample): a last-review date three days in the future
of the run clock produces `days_since_last_review = -3`, which is neither
`≥ 0` nor the `-1` sentinel — refuting the claim as stated. -/
theorem c3_counterexample :
    nycTransform 100 ⟨["last_review"], [[.date 103]]⟩ =
      .ok ⟨["last_review", "days_since_last_review"],
        [[.date 103, .num (-3)]]⟩ ∧
    ¬ ((0 : ℚ) ≤ -3) ∧ ((-3 : ℚ) ≠ -1) :=
  ⟨rfl, by decide, by decide⟩

/-- Claim C3 (amended): every value of the `days_since_last_review` column
produced by `NYC_Airbnb_ETL.transform` is a non-null number, paired row-wise
with the coerced `last_review` column: `now - d` for a parsed date `d`
(negative whenever the date is in the future — not only `-1`), and exactly
`-1` for rows with no parseable last-review date. -/
theorem c3_amended (now : ℤ) (t out : Table) (hwf : t.WF)
    (h : nycTransform now t = .ok out) :
    ∀ pr ∈ (getCol out "last_review").zip
        (getCol out "days_since_last_review"),
      (∃ d : ℤ, pr.1 = .date d ∧ pr.2 = .num ((now - d : ℤ) : ℚ)) ∨
      (pr.1 = .null ∧ pr.2 = .num (-1)) := by
  unfold nycTransform at h
  obtain ⟨t4, ht4, hA⟩ := exceptBind_ok.mp h
  obtain ⟨t6, ht6, hB⟩ := exceptBind_ok.mp hA
  obtain ⟨t7, ht7, hC⟩ := exceptBind_ok.mp hB
  obtain ⟨ht4eq, _⟩ := nycPriceStep_ok ht4
  have hwf4 : t4.WF := by rw [ht4eq]; exact WF_nycStage3 hwf
  have hwf5 : (dateStep (dateStep t4 "last_review") "host_since").WF :=
    WF_dateStep (WF_dateStep hwf4 _) _
  set t5 := dateStep (dateStep t4 "last_review") "host_since" with ht5def
  by_cases hlr : "last_review" ∈ t5.cols
  · -- the last-review column exists: characterise both columns through the
    -- remaining steps
    have hlr4 : "last_review" ∈ t4.cols := by
      rw [ht5def, cols_dateStep, cols_dateStep] at hlr
      exact hlr
    have hlrv : getCol t5 "last_review" =
        (getCol t4 "last_review").map toDatetimeV := by
      rw [ht5def, getCol_dateStep_ne (show ("last_review" : String) ≠ "host_since" by decide)]
      exact getCol_dateStep_self hlr4
    have hrange : ∀ v ∈ getCol t5 "last_review",
        (∃ d : ℤ, v = .date d) ∨ v = .null := by
      intro v hv
      rw [hlrv] at hv
      obtain ⟨w, _, rfl⟩ := List.mem_map.mp hv
      exact toDatetimeV_date_or_null w
    -- invert featRecency
    unfold featRecency at ht6
    rw [if_pos hlr] at ht6
    obtain ⟨vals, hvals, ht6⟩ := exceptBind_ok.mp ht6
    have ht6eq : setCol (setCol t5 "days_since_last_review" vals)
        "days_since_last_review"
        ((getCol (setCol t5 "days_since_last_review" vals)
          "days_since_last_review").map fillNegOne) = t6 := by
      simpa [exceptPure_eq] using ht6
    have hvals_eq : vals = (getCol t5 "last_review").map (tdDays now) := by
      have hmm := mapME_eq_ok_map (f := subDaysE now) (g := tdDays now)
        (fun v hv => subDaysE_ok_of_dateOrNull (hrange v hv))
      rw [hvals] at hmm
      exact (Except.ok.injEq _ _).mp hmm
    have hlv : vals.length = t5.rows.length := by
      rw [mapME_ok_length hvals, getCol_length hlr]
    set t5d := setCol t5 "days_since_last_review" vals with ht5d
    have hwf5d : t5d.WF := WF_setCol hwf5 hlv
    have hgd : getCol t5d "days_since_last_review" = vals :=
      getCol_setCol_self hwf5 hlv
    have hlv2 : ((getCol t5d "days_since_last_review").map fillNegOne).length =
        t5d.rows.length := by
      rw [List.length_map, getCol_length (mem_cols_setCol.mpr (Or.inr rfl))]
    have hwf6 : t6.WF := ht6eq ▸ WF_setCol hwf5d hlv2
    have hdays6 : getCol t6 "days_since_last_review" =
        (getCol t5 "last_review").map (fillNegOne ∘ tdDays now) := by
      rw [← ht6eq, getCol_setCol_self hwf5d hlv2, hgd, hvals_eq,
        List.map_map]
    have hlr6 : getCol t6 "last_review" = getCol t5 "last_review" := by
      rw [← ht6eq,
        getCol_setCol_ne hwf5d hlv2
          (show ("last_review" : String) ≠ "days_since_last_review" by decide),
        getCol_setCol_ne hwf5 hlv
          (show ("last_review" : String) ≠ "days_since_last_review" by decide)]
    -- frame through featPPN and featAvailability
    obtain ⟨hf7d, hwf7⟩ := featPPN_frame hwf6 ht7
      (show ("days_since_last_review" : String) ≠ "price_per_night" by decide)
    obtain ⟨hf7l, _⟩ := featPPN_frame hwf6 ht7
      (show ("last_review" : String) ≠ "price_per_night" by decide)
    obtain ⟨hfod, _⟩ := featAvailability_frame hwf7 hC
      (show ("days_since_last_review" : String) ≠ "is_available" by decide)
    obtain ⟨hfol, _⟩ := featAvailability_frame hwf7 hC
      (show ("last_review" : String) ≠ "is_available" by decide)
    intro pr hpr
    rw [hfol, hf7l, hlr6, hfod, hf7d, hdays6] at hpr
    obtain ⟨a, ha, rfl⟩ := mem_zip_map hpr
    rcases hrange a ha with ⟨d, rfl⟩ | rfl
    · exact Or.inl ⟨d, rfl, by simp [tdDays, fillNegOne]⟩
    · exact Or.inr ⟨rfl, by simp [tdDays, fillNegOne]⟩
  · -- no last-review column: it cannot reappear, so the zip is empty
    have ht6eq : t5 = t6 := by
      unfold featRecency at ht6
      rw [if_neg hlr] at ht6
      simpa [exceptPure_eq] using ht6
    have hlrout : "last_review" ∉ out.cols := by
      intro hmem
      rcases mem_cols_featAvailability hC hmem with h7 | h7
      · rcases mem_cols_featPPN ht7 h7 with h6 | h6
        · exact hlr (ht6eq ▸ h6)
        · exact absurd h6 (by decide)
      · exact absurd h7 (by decide)
    intro pr hpr
    rw [getCol_eq_nil_of_not_mem hlrout] at hpr
    simp at hpr

/-- Witness for C3 (amended): a last-review date ten days before the clock
gives the pair `(date 90, 10)`. -/
theorem c3_amended_witness :
    (∃ d : ℤ, ((Value.date 90, Value.num 10) : Value × Value).1 = .date d ∧
      ((Value.date 90, Value.num 10) : Value × Value).2 =
        .num ((100 - d : ℤ) : ℚ)) ∨
    (((Value.date 90, Value.num 10) : Value × Value).1 = .null ∧
      ((Value.date 90, Value.num 10) : Value × Value).2 = .num (-1)) :=
  c3_amended 100 ⟨["last_review"], [[.date 90]]⟩
    ⟨["last_review", "days_since_last_review"], [[.date 90, .num 10]]⟩
    (by decide) (by rfl) (Value.date 90, Value.num 10) (by decide)

/-! ### Claim C6: the quality gate -/


theorem lt0E_ok_of_comparable {v : Value} (h : priceComparable v = true) :
    lt0E v = .ok (lt0B v) := by
  cases v <;> simp [priceComparable] at h ⊢ <;> rfl

/-- Claim C6 (counterexample): the quality gate is claimed never to raise;
a table whose `price` column holds the string `"abc"` makes the
`df['price'] < 0` comparison raise `TypeError` (str against int). -/
theorem c6_counterexample :
    runQualityChecks true 0 ⟨["price"], [[.str "abc"]]⟩ =
      .error "TypeError: comparison not supported between this dtype and int" := by
  rfl

theorem idCheck_iff (t : Table) :
    ("id" ∈ t.cols ∧ 0 < (getCol t "id").countP (fun v => v == .null)) ↔
      ("id" ∈ t.cols ∧ Value.null ∈ getCol t "id") := by
  refine and_congr_right fun _ => ?_
  rw [List.countP_pos_iff]
  constructor
  · rintro ⟨v, hv, hb⟩
    rwa [show v = .null from by simpa using hb] at hv
  · intro hv
    exact ⟨.null, hv, by simp⟩

theorem negPrice_iff (pcol : List Value) :
    (0 < (pcol.map lt0B).countP id) ↔
      (∃ q : ℚ, Value.num q ∈ pcol ∧ q < 0) := by
  rw [List.countP_pos_iff]
  constructor
  · rintro ⟨b, hb, hid⟩
    obtain ⟨v, hv, rfl⟩ := List.mem_map.mp hb
    cases v with
    | num q =>
      refine ⟨q, hv, ?_⟩
      simpa [lt0B] using hid
    | null => simp [lt0B] at hid
    | str s => simp [lt0B] at hid
    | date d => simp [lt0B] at hid
    | bool b => simp [lt0B] at hid
  · rintro ⟨q, hq, hneg⟩
    exact ⟨true, List.mem_map.mpr ⟨.num q, hq, by simp [lt0B, hneg]⟩, rfl⟩

/-- Claim C6 (amended): with quality checks enabled and every `price` cell
numeric, boolean or missing, the gate returns a report (no exception) whose
pass flag is `false` exactly when some row has a null `id` (id column
present) or a negative `price` (price column present); the date checks feed
only the warnings and never the pass flag, and the table itself is only
read.  (A non-numeric string price instead raises, per the
counterexample.) -/
theorem c6_amended (now : ℤ) (t : Table)
    (h : ∀ v ∈ getCol t "price", priceComparable v = true) :
    ∃ r : QReport, runQualityChecks true now t = .ok r ∧
      (r.pass = false ↔
        (("id" ∈ t.cols ∧ Value.null ∈ getCol t "id") ∨
         ("price" ∈ t.cols ∧ ∃ q : ℚ, Value.num q ∈ getCol t "price" ∧ q < 0))) := by
  unfold runQualityChecks
  rw [if_neg (by decide : ¬ (true = false))]
  by_cases hp : "price" ∈ t.cols
  · have hmap : mapME lt0E (getCol t "price") =
        .ok ((getCol t "price").map lt0B) :=
      mapME_eq_ok_map (fun v hv => lt0E_ok_of_comparable (h v hv))
    rw [if_pos hp, hmap]
    refine ⟨_, rfl, ?_⟩
    have hAiff := idCheck_iff t
    have hBiff := negPrice_iff (getCol t "price")
    by_cases hA' : "id" ∈ t.cols ∧ Value.null ∈ getCol t "id" <;>
      by_cases hB' : ∃ q : ℚ, Value.num q ∈ getCol t "price" ∧ q < 0
    · rw [if_pos (hAiff.mpr hA'), if_pos (hBiff.mpr hB')]
      simp [hA']
    · rw [if_pos (hAiff.mpr hA'), if_neg (fun hc => hB' (hBiff.mp hc))]
      simp [hA']
    · rw [if_neg (fun hc => hA' (hAiff.mp hc)), if_pos (hBiff.mpr hB')]
      simp [hA', hB', hp]
    · rw [if_neg (fun hc => hA' (hAiff.mp hc)), if_neg (fun hc => hB' (hBiff.mp hc))]
      simp [hA', hB']
  · rw [if_neg hp]
    refine ⟨_, rfl, ?_⟩
    have hAiff := idCheck_iff t
    by_cases hA' : "id" ∈ t.cols ∧ Value.null ∈ getCol t "id"
    · rw [if_pos (hAiff.mpr hA')]
      simp [hA']
    · rw [if_neg (fun hc => hA' (hAiff.mp hc))]
      simp [hA', hp]

/-- Witness for C6 (amended): spec scenario 4 — one null identifier, no
negative price: the report comes back with pass determined by the null-id
finding alone. -/
theorem c6_amended_witness :
    ∃ r : QReport,
      runQualityChecks true 0 ⟨["id", "price"], [[.null, .num 5]]⟩ = .ok r ∧
      (r.pass = false ↔
        (("id" ∈ (Table.mk ["id", "price"] [[.null, .num 5]]).cols ∧
            Value.null ∈ getCol ⟨["id", "price"], [[.null, .num 5]]⟩ "id") ∨
         ("price" ∈ (Table.mk ["id", "price"] [[.null, .num 5]]).cols ∧
            ∃ q : ℚ, Value.num q ∈
              getCol ⟨["id", "price"], [[.null, .num 5]]⟩ "price" ∧ q < 0))) :=
  c6_amended 0 ⟨["id", "price"], [[.null, .num 5]]⟩ (by decide)

end AbEtl
